import Mathlib

set_option maxRecDepth 8000

/-!
Shallow embedding of the arena allocator in `src/mavalloc.c`.

The C allocator keeps a singly linked list of nodes (kind HOLE/PROCESS,
arena offset, byte length) headed by a zero-length sentinel, a fixed
pool of 200 node descriptors recycled through a stack, and a
`previous_node` cursor used by the next-fit strategy.

Modelling choices:
* the block list is a Lean list of real blocks (the sentinel is kept
  implicit: the position before the first element plays its role);
* each C node object carries a model identity (a `Nat` tag) so that the
  `previous_node` cursor, which in C is a pointer to a node object that
  survives list surgery, can be represented faithfully;
* the descriptor stack is modelled by the count of free descriptors;
* a C execution step that dereferences a null `next` pointer, or that
  follows the cursor to a node that has been returned to the descriptor
  stack (freed memory), has no defined list-level behaviour; the model
  returns `CR.crash` for those steps.
-/

namespace Mavalloc

/-- Block kind, from `enum ALLOCATE` in mavalloc.c: a free HOLE or an
allocated PROCESS region. -/
inductive ALLOCATE where
  | HOLE
  | PROCESS
  deriving DecidableEq, Repr

/-- Contents of one list node of `struct Node` in mavalloc.c, without the
`next` pointer (the list structure carries adjacency): kind, arena
offset (`address`), and byte length (`size`). -/
structure Node where
  type : ALLOCATE
  address : Nat
  size : Nat
  deriving DecidableEq, Repr

/-- A list cell: a descriptor identity tag (modelling the C node object's
address, needed to track the next-fit cursor across list surgery) paired
with the node contents. -/
abbrev Blk := Nat × Node

/-- Modelled from the spec: the `ALGORITHM` enumeration of the missing
header mavalloc.h, the closed strategy set FirstFit, NextFit, BestFit,
WorstFit, with the constructor names used by the `switch` in
`mavalloc_alloc`. -/
inductive ALGORITHM where
  | FIRST_FIT
  | NEXT_FIT
  | BEST_FIT
  | WORST_FIT
  deriving DecidableEq, Repr

/-- The allocator's global state after a successful `mavalloc_init`:
the real block list (`head_pointer->next` onward), the next-fit cursor
`previous_node` (`none` means it points at the sentinel `head_pointer`),
a fresh-identity counter for new descriptors, the count of free
descriptors remaining in the node stack, the aligned arena capacity
`memory_arena_size`, and the chosen algorithm `heap_algo`. -/
structure AState where
  blocks : List Blk
  prev : Option Nat
  fresh : Nat
  pool : Nat
  cap : Nat
  algo : ALGORITHM
  deriving DecidableEq, Repr

/-- Result of a C step: a defined result, or undefined behaviour (null
dereference / access through a dangling pointer). -/
inductive CR (α : Type) where
  | ok : α → CR α
  | crash : CR α
  deriving DecidableEq, Repr

def CR.map {α β : Type} (f : α → β) : CR α → CR β
  | .ok a => .ok (f a)
  | .crash => .crash

/-- Modelled from the spec: the `ALIGN4` macro of the missing header
mavalloc.h. The spec says sizes are rounded up to a multiple of 4, and
that a request of size 0 still consumes a possibly zero-length block, so
the aligned value of 0 is 0. -/
def ALIGN4 (s : Nat) : Nat := 4 * ((s + 3) / 4)

/-- `NODE_AMOUNT` in mavalloc.c: total descriptors in the node stack. -/
def NODE_AMOUNT : Nat := 200

/-- `mavalloc_init` (success path): capacity is 4-byte aligned, the list
holds one HOLE spanning the aligned capacity, `previous_node` is set to
the sentinel `head_pointer`, and two descriptors (sentinel plus initial
hole) have been popped from the node stack. -/
def mavalloc_init (n : Nat) (alg : ALGORITHM) : AState :=
  { blocks := [(0, ⟨.HOLE, 0, ALIGN4 n⟩)]
    prev := none
    fresh := 1
    pool := NODE_AMOUNT - 2
    cap := ALIGN4 n
    algo := alg }

/-- `allocate_node` in mavalloc.c, lines 263-307, given the selected
hole as the decomposition `blocks = pre ++ h :: post` (the C argument
`hole_ptr` points at the last element of `pre`, or at the sentinel when
`pre = []`). If the node stack is empty, `new_node` fails and nothing
changes. If `h.address + size >= memory_arena_size` the hole node is
freed and the new PROCESS node's `next` stays NULL, severing `post`.
Otherwise the hole is advanced by `size`; if its remaining size is 0 it
is removed, else it stays in place after the new PROCESS node. -/
def allocate_node (st : AState) (pre : List Blk) (h : Blk) (post : List Blk)
    (size : Nat) : Option Nat × AState :=
  if st.pool = 0 then (none, st)
  else
    let newP : Blk := (st.fresh, ⟨.PROCESS, h.2.address, size⟩)
    if st.cap ≤ h.2.address + size then
      (some h.2.address,
        { st with blocks := pre ++ [newP], fresh := st.fresh + 1 })
    else if h.2.size - size = 0 then
      (some h.2.address,
        { st with blocks := pre ++ newP :: post, fresh := st.fresh + 1 })
    else
      (some h.2.address,
        { st with
            blocks := pre ++ newP ::
              (h.1, ⟨.HOLE, h.2.address + size, h.2.size - size⟩) :: post
            fresh := st.fresh + 1
            pool := st.pool - 1 })

/-- The scan of `alloc_first_fit`: the first block that is a HOLE of
sufficient size, returned with its surrounding decomposition; `none`
when the walk reaches the end of the list. -/
def findFit (size : Nat) : List Blk → Option (List Blk × Blk × List Blk)
  | [] => none
  | x :: xs =>
    if x.2.type = .HOLE ∧ size ≤ x.2.size then some ([], x, xs)
    else
      match findFit size xs with
      | none => none
      | some (p, y, q) => some (x :: p, y, q)

/-- `alloc_first_fit` in mavalloc.c, lines 316-337. -/
def alloc_first_fit (st : AState) (size : Nat) : Option Nat × AState :=
  match findFit size st.blocks with
  | none => (none, st)
  | some (p, y, q) => allocate_node st p y q size

/-- Element of a block list at an index. -/
def nth : List Blk → Nat → Option Blk
  | [], _ => none
  | x :: _, 0 => some x
  | _ :: xs, j + 1 => nth xs j

/-- The position (pointer value) of the node whose successor is the
block at index `j`: `none` is the sentinel `head_pointer`, otherwise the
identity of the block at index `j - 1`. -/
def posAt (bs : List Blk) (j : Nat) : Option Nat :=
  match j with
  | 0 => none
  | k + 1 => (nth bs k).map Prod.fst

/-- Index of the block with a given descriptor identity. -/
def idxOfId (id : Nat) : List Blk → Option Nat
  | [] => none
  | x :: xs => if x.1 = id then some 0 else (idxOfId id xs).map (· + 1)

/-- The scan loop of `alloc_next_fit` in mavalloc.c, lines 355-365.
`j` is the index of `runner->next`; the loop condition dereferences
`runner->next`, so a missing successor is a null dereference (`crash`).
On advance, a runner whose own successor is null wraps to the sentinel;
the loop reports failure when the runner returns to `previous_node`.
Returns the index of the selected hole. -/
def nfLoop (bs : List Blk) (p0 : Option Nat) (size : Nat) :
    Nat → Nat → CR (Option Nat)
  | 0, _ => .crash
  | fuel + 1, j =>
    match nth bs j with
    | none => .crash
    | some x =>
      if x.2.type = .PROCESS ∨ x.2.size < size then
        if posAt bs (if j + 1 = bs.length then 0 else j + 1) = p0 then .ok none
        else nfLoop bs p0 size fuel (if j + 1 = bs.length then 0 else j + 1)
      else .ok (some j)

/-- `alloc_next_fit` in mavalloc.c, lines 346-373: the scan starts at
`previous_node`; if that cursor points at a node that has been returned
to the descriptor stack, the C code walks freed memory (`crash`). On
success the cursor is updated to the node before the selected hole
before `allocate_node` runs. -/
def alloc_next_fit (st : AState) (size : Nat) : CR (Option Nat × AState) :=
  match (match st.prev with
         | none => some 0
         | some id => (idxOfId id st.blocks).map (· + 1)) with
  | none => .crash
  | some j0 =>
    match nfLoop st.blocks st.prev size (st.blocks.length + 2) j0 with
    | .crash => .crash
    | .ok none => .ok (none, st)
    | .ok (some j) =>
      match nth st.blocks j with
      | none => .crash
      | some h =>
        .ok (allocate_node { st with prev := posAt st.blocks j }
              (st.blocks.take j) h (st.blocks.drop (j + 1)) size)

/-- The scan of `alloc_best_fit` in mavalloc.c, lines 389-402: walk the
whole list keeping the first hole of sufficient size strictly smaller
than the running minimum (initially `memory_arena_size + 1`), as a
decomposition of the full list. -/
def bfScan (size : Nat) : List Blk → Nat →
    Option (List Blk × Blk × List Blk) → List Blk →
    Option (List Blk × Blk × List Blk)
  | [], _, best, _ => best
  | x :: xs, mn, best, pre =>
    if x.2.type = .HOLE ∧ size ≤ x.2.size ∧ x.2.size < mn then
      bfScan size xs x.2.size (some (pre, x, xs)) (pre ++ [x])
    else
      bfScan size xs mn best (pre ++ [x])

/-- `alloc_best_fit` in mavalloc.c, lines 381-406; with no candidate the
C code calls `allocate_node(NULL, size)`, which fails leaving the state
unchanged. -/
def alloc_best_fit (st : AState) (size : Nat) : Option Nat × AState :=
  match bfScan size st.blocks (st.cap + 1) none [] with
  | none => (none, st)
  | some (p, y, q) => allocate_node st p y q size

/-- The scan of `alloc_worst_fit` in mavalloc.c, lines 422-435: keep the
first hole of sufficient size strictly larger than the running maximum,
initially 0. -/
def wfScan (size : Nat) : List Blk → Nat →
    Option (List Blk × Blk × List Blk) → List Blk →
    Option (List Blk × Blk × List Blk)
  | [], _, best, _ => best
  | x :: xs, mx, best, pre =>
    if x.2.type = .HOLE ∧ size ≤ x.2.size ∧ mx < x.2.size then
      wfScan size xs x.2.size (some (pre, x, xs)) (pre ++ [x])
    else
      wfScan size xs mx best (pre ++ [x])

/-- `alloc_worst_fit` in mavalloc.c, lines 414-439. -/
def alloc_worst_fit (st : AState) (size : Nat) : Option Nat × AState :=
  match wfScan size st.blocks 0 none [] with
  | none => (none, st)
  | some (p, y, q) => allocate_node st p y q size

/-- `mavalloc_alloc` in mavalloc.c, lines 456-482: 4-byte align the
request, then dispatch on the algorithm chosen at initialization. On an
uninitialized allocator every strategy returns NULL at its
`head_pointer == NULL` check. The returned address is arena-relative. -/
def mavalloc_alloc (n : Nat) : Option AState → CR (Option Nat × Option AState)
  | none => .ok (none, none)
  | some st =>
    match st.algo with
    | .FIRST_FIT =>
      let r := alloc_first_fit st (ALIGN4 n); .ok (r.1, some r.2)
    | .NEXT_FIT =>
      (alloc_next_fit st (ALIGN4 n)).map (fun r => (r.1, some r.2))
    | .BEST_FIT =>
      let r := alloc_best_fit st (ALIGN4 n); .ok (r.1, some r.2)
    | .WORST_FIT =>
      let r := alloc_worst_fit st (ALIGN4 n); .ok (r.1, some r.2)

/-- The freed block retyped to HOLE (`runner->type = HOLE`, situation a
of `mavalloc_free`). -/
def retypeHole (x : Blk) : Blk := (x.1, ⟨.HOLE, x.2.address, x.2.size⟩)

/-- The trailing merge of `mavalloc_free`, lines 527-535: if the node
after the freed-or-merged node `x` exists and is a HOLE, absorb its size
into `x` and return that successor's descriptor to the stack. Returns
the new sublist from `x` on, and the number of descriptors freed. -/
def mergeNextHole (x : Blk) : List Blk → List Blk × Nat
  | [] => ([x], 0)
  | y :: rest =>
    if y.2.type = .HOLE then
      ((x.1, ⟨x.2.type, x.2.address, x.2.size + y.2.size⟩) :: rest, 1)
    else (x :: y :: rest, 0)

/-- The walk and case split of `mavalloc_free`, lines 500-537, on the
real block list: find the first node whose `address` equals the freed
offset (`none` if the walk falls off the end). If the predecessor is a
HOLE and is not the sentinel, absorb the found node into it (situation
c); otherwise retype the found node to HOLE (situation a). Then merge
with the following HOLE if present. Returns the new list and the number
of descriptors returned to the stack. -/
def freeScan (a : Nat) : List Blk → Option (List Blk × Nat)
  | [] => none
  | [x] =>
    if x.2.address = a then some (mergeNextHole (retypeHole x) []) else none
  | x :: y :: rest =>
    if x.2.address = a then some (mergeNextHole (retypeHole x) (y :: rest))
    else if y.2.address = a then
      if x.2.type = .HOLE then
        some ((mergeNextHole (x.1, ⟨x.2.type, x.2.address, x.2.size + y.2.size⟩) rest).1,
          (mergeNextHole (x.1, ⟨x.2.type, x.2.address, x.2.size + y.2.size⟩) rest).2 + 1)
      else
        some (x :: (mergeNextHole (retypeHole y) rest).1,
          (mergeNextHole (retypeHole y) rest).2)
    else
      (freeScan a (y :: rest)).map (fun p => (x :: p.1, p.2))

/-- The outcome of `mavalloc_free` once the first node carrying the
freed offset has been located as `blocks = pre ++ x :: rest`: absorb
`x` into a FREE non-sentinel predecessor (situation c) or retype `x` in
place (situation a), then merge with a following FREE block; paired
with the number of descriptors returned to the stack. -/
def freeResult (pre : List Blk) (x : Blk) (rest : List Blk) : List Blk × Nat :=
  match pre.getLast? with
  | some p =>
    if p.2.type = .HOLE then
      (pre.dropLast ++
        (mergeNextHole (p.1, ⟨p.2.type, p.2.address, p.2.size + x.2.size⟩) rest).1,
        (mergeNextHole (p.1, ⟨p.2.type, p.2.address, p.2.size + x.2.size⟩) rest).2 + 1)
    else
      (pre ++ (mergeNextHole (retypeHole x) rest).1,
        (mergeNextHole (retypeHole x) rest).2)
  | none => mergeNextHole (retypeHole x) rest

/-- `mavalloc_free` in mavalloc.c, lines 495-538, taking the
arena-relative offset (`ptr - memory_arena`). A no-op when
uninitialized or when no node carries the offset. The cursor
`previous_node` is not updated by free. -/
def mavalloc_free (a : Nat) : Option AState → Option AState
  | none => none
  | some st =>
    match freeScan a st.blocks with
    | none => some st
    | some (bs, k) => some { st with blocks := bs, pool := st.pool + k }

/-- `mavalloc_size` in mavalloc.c, lines 548-564: the number of real
nodes (the sentinel is not counted); 0 when uninitialized. -/
def mavalloc_size : Option AState → Nat
  | none => 0
  | some st => st.blocks.length

/-- `mavalloc_destroy` in mavalloc.c, lines 221-254: frees the arena and
node stack and clears `head_pointer`, leaving the allocator
uninitialized; a no-op when already uninitialized. -/
def mavalloc_destroy : Option AState → Option AState := fun _ => none

/-- The (kind, offset, length) triple of each block, in list order. -/
def triples (bs : List Blk) : List (ALLOCATE × Nat × Nat) :=
  bs.map (fun b => (b.2.type, b.2.address, b.2.size))

/-- Reachable allocator states: uninitialized, or any sequence of
`init`, `alloc` (along a defined, non-crashing execution), `free`, and
`destroy`. -/
inductive Reach : Option AState → Prop where
  | boot : Reach none
  | init : ∀ (n : Nat) (alg : ALGORITHM), Reach (some (mavalloc_init n alg))
  | alloc : ∀ (s : Option AState) (n : Nat) (r : Option Nat)
      (s2 : Option AState), Reach s →
      mavalloc_alloc n s = .ok (r, s2) → Reach s2
  | free : ∀ (s : Option AState) (a : Nat), Reach s →
      Reach (mavalloc_free a s)
  | destroy : ∀ (s : Option AState), Reach s → Reach (mavalloc_destroy s)

/-- States reachable when the initial capacity and every allocation
request are nonzero. -/
inductive ReachPos : Option AState → Prop where
  | init : ∀ (n : Nat) (alg : ALGORITHM), 0 < n →
      ReachPos (some (mavalloc_init n alg))
  | alloc : ∀ (s : Option AState) (n : Nat) (r : Option Nat)
      (s2 : Option AState), ReachPos s → 0 < n →
      mavalloc_alloc n s = .ok (r, s2) → ReachPos s2
  | free : ∀ (s : Option AState) (a : Nat), ReachPos s →
      ReachPos (mavalloc_free a s)

/-- The block list tiles the arena starting at offset `s` and ending
exactly at `c`: each block begins where the previous one ends. -/
def ContigFrom (s c : Nat) : List Blk → Prop
  | [] => s = c
  | b :: bs => b.2.address = s ∧ ContigFrom (b.2.address + b.2.size) c bs

instance instDecContigFrom :
    (s c : Nat) → (bs : List Blk) → Decidable (ContigFrom s c bs)
  | s, c, [] => inferInstanceAs (Decidable (s = c))
  | s, c, b :: bs =>
    have : Decidable (ContigFrom (b.2.address + b.2.size) c bs) :=
      instDecContigFrom _ _ bs
    inferInstanceAs (Decidable (b.2.address = s ∧
      ContigFrom (b.2.address + b.2.size) c bs))

/-- Two consecutive blocks are not both FREE. -/
def HolePairOk (u v : Blk) : Prop :=
  ¬(u.2.type = .HOLE ∧ v.2.type = .HOLE)

instance : ∀ u v : Blk, Decidable (HolePairOk u v) := fun u v =>
  inferInstanceAs (Decidable ¬(u.2.type = .HOLE ∧ v.2.type = .HOLE))

/-- No two consecutive blocks in the list are both FREE. -/
def NoAdjHoles (bs : List Blk) : Prop := List.Chain' HolePairOk bs

/-- Offsets strictly ascend along the list. -/
def StrictAsc : List Blk → Prop
  | [] => True
  | [_] => True
  | u :: v :: bs => u.2.address < v.2.address ∧ StrictAsc (v :: bs)

instance instDecStrictAsc : (bs : List Blk) → Decidable (StrictAsc bs)
  | [] => inferInstanceAs (Decidable True)
  | [_] => inferInstanceAs (Decidable True)
  | u :: v :: bs =>
    have : Decidable (StrictAsc (v :: bs)) := instDecStrictAsc (v :: bs)
    inferInstanceAs (Decidable (u.2.address < v.2.address ∧ StrictAsc (v :: bs)))

/-- Every block has positive length. -/
def AllPos (bs : List Blk) : Prop := ∀ b ∈ bs, 0 < b.2.size

instance (bs : List Blk) : Decidable (AllPos bs) :=
  inferInstanceAs (Decidable (∀ b ∈ bs, 0 < b.2.size))

/-- Every block offset is below the capacity (unless the arena is
empty). -/
def AddrOk (c : Nat) (bs : List Blk) : Prop :=
  ∀ b ∈ bs, b.2.address < c ∨ c = 0

/-- Every block offset and length is 4-byte aligned. -/
def Align4Ok (bs : List Blk) : Prop :=
  ∀ b ∈ bs, b.2.address % 4 = 0 ∧ b.2.size % 4 = 0

/-- The structural invariant of reachable initialized states. -/
def Inv (st : AState) : Prop :=
  st.blocks ≠ [] ∧
  ContigFrom 0 st.cap st.blocks ∧
  NoAdjHoles st.blocks ∧
  AddrOk st.cap st.blocks ∧
  (st.cap = 0 → st.blocks.length ≤ 1) ∧
  st.cap % 4 = 0 ∧
  Align4Ok st.blocks

/-! Concrete states of two short runs, used below to evaluate the
operations at specific inputs. The `nf` states follow
`init(32, NEXT_FIT); alloc(16); alloc(16); free(0); free(16)`; the `z`
states follow `init(16, FIRST_FIT); alloc(0); alloc(0); free(0)`. -/

/-- After `init(32, NEXT_FIT); alloc(16)`. -/
def nfSt1 : AState :=
  { blocks := [(1, ⟨.PROCESS, 0, 16⟩), (0, ⟨.HOLE, 16, 16⟩)]
    prev := none, fresh := 2, pool := 197, cap := 32, algo := .NEXT_FIT }

/-- After a second `alloc(16)`: the arena is fully allocated and the
next-fit cursor `previous_node` points at the node with identity 1. -/
def nfSt2 : AState :=
  { blocks := [(1, ⟨.PROCESS, 0, 16⟩), (2, ⟨.PROCESS, 16, 16⟩)]
    prev := some 1, fresh := 3, pool := 197, cap := 32, algo := .NEXT_FIT }

/-- After `free(0)`: the first block is FREE again. -/
def nfSt3 : AState :=
  { blocks := [(1, ⟨.HOLE, 0, 16⟩), (2, ⟨.PROCESS, 16, 16⟩)]
    prev := some 1, fresh := 3, pool := 197, cap := 32, algo := .NEXT_FIT }

/-- After `free(16)`: both frees coalesced into one hole held by node 1,
which is now the last node while `previous_node` still points at it, so
`previous_node->next` is null. -/
def nfSt4 : AState :=
  { blocks := [(1, ⟨.HOLE, 0, 32⟩)]
    prev := some 1, fresh := 3, pool := 198, cap := 32, algo := .NEXT_FIT }

/-- After `init(16, FIRST_FIT); alloc(0)`: the zero-byte request created
a zero-length ALLOCATED block at offset 0. -/
def zSt1 : AState :=
  { blocks := [(1, ⟨.PROCESS, 0, 0⟩), (0, ⟨.HOLE, 0, 16⟩)]
    prev := none, fresh := 2, pool := 197, cap := 16, algo := .FIRST_FIT }

/-- After a second `alloc(0)`: two zero-length ALLOCATED blocks share
offset 0. -/
def zSt2 : AState :=
  { blocks := [(1, ⟨.PROCESS, 0, 0⟩), (2, ⟨.PROCESS, 0, 0⟩), (0, ⟨.HOLE, 0, 16⟩)]
    prev := none, fresh := 3, pool := 196, cap := 16, algo := .FIRST_FIT }

/-- After `free(0)` on `zSt2`: the walk finds the first node at offset
0 (node 1) and retypes it, leaving node 2 allocated. -/
def zSt3 : AState :=
  { blocks := [(1, ⟨.HOLE, 0, 0⟩), (2, ⟨.PROCESS, 0, 0⟩), (0, ⟨.HOLE, 0, 16⟩)]
    prev := none, fresh := 3, pool := 196, cap := 16, algo := .FIRST_FIT }

/-! Basic facts about the alignment macro and block kinds. -/

theorem align4_mod (s : Nat) : ALIGN4 s % 4 = 0 := Nat.mul_mod_right 4 _

theorem align4_pos (s : Nat) (h : 0 < s) : 0 < ALIGN4 s := by
  unfold ALIGN4; omega

theorem not_process_eq_hole {t : ALLOCATE} (h : t ≠ .PROCESS) : t = .HOLE := by
  cases t
  · rfl
  · exact absurd rfl h

theorem holePairOk_left {u v : Blk} (h : u.2.type ≠ .HOLE) : HolePairOk u v :=
  fun hc => h hc.1

theorem holePairOk_right {u v : Blk} (h : v.2.type ≠ .HOLE) : HolePairOk u v :=
  fun hc => h hc.2

theorem process_not_hole : (ALLOCATE.PROCESS : ALLOCATE) ≠ .HOLE := by
  intro h; cases h

theorem retypeHole_eq {x : Blk} (h : x.2.type = .HOLE) : retypeHole x = x := by
  obtain ⟨i, t, ad, sz⟩ := x
  simp only [retypeHole]
  simp_all

/-! Facts about the tiling predicate `ContigFrom`. -/

theorem contigFrom_le : ∀ (bs : List Blk) (s c : Nat), ContigFrom s c bs → s ≤ c
  | [], _, _, h => Nat.le_of_eq h
  | b :: bs, s, c, h => by
    obtain ⟨h1, h2⟩ := h
    have := contigFrom_le bs _ _ h2
    omega

theorem contigFrom_append_elim :
    ∀ (xs ys : List Blk) (s c : Nat), ContigFrom s c (xs ++ ys) →
      ∃ m, ContigFrom s m xs ∧ ContigFrom m c ys
  | [], ys, s, c, h => ⟨s, rfl, h⟩
  | x :: xs, ys, s, c, h => by
    obtain ⟨h1, h2⟩ := h
    obtain ⟨m, hx, hy⟩ := contigFrom_append_elim xs ys _ _ h2
    exact ⟨m, ⟨h1, hx⟩, hy⟩

theorem contigFrom_append_intro :
    ∀ (xs ys : List Blk) (s m c : Nat), ContigFrom s m xs → ContigFrom m c ys →
      ContigFrom s c (xs ++ ys)
  | [], ys, s, m, c, hx, hy => by
    obtain rfl : s = m := hx
    exact hy
  | x :: xs, ys, s, m, c, hx, hy => by
    obtain ⟨h1, h2⟩ := hx
    exact ⟨h1, contigFrom_append_intro xs ys _ m c h2 hy⟩

theorem contigFrom_addr_bound :
    ∀ (bs : List Blk) (s c : Nat), ContigFrom s c bs →
      ∀ b ∈ bs, s ≤ b.2.address ∧ b.2.address + b.2.size ≤ c
  | [], _, _, _, b, hb => absurd hb (List.not_mem_nil b)
  | x :: bs, s, c, h, b, hb => by
    obtain ⟨h1, h2⟩ := h
    rcases List.mem_cons.mp hb with rfl | hb2
    · have := contigFrom_le bs _ _ h2
      omega
    · have := contigFrom_addr_bound bs _ _ h2 b hb2
      omega

theorem contigFrom_cover :
    ∀ (bs : List Blk) (s c : Nat), ContigFrom s c bs → ∀ x : Nat,
      (s ≤ x ∧ x < c) ↔ ∃ b ∈ bs, b.2.address ≤ x ∧ x < b.2.address + b.2.size
  | [], s, c, h, x => by
    obtain rfl : s = c := h
    simp
  | b :: bs, s, c, h, x => by
    obtain ⟨h1, h2⟩ := h
    have hle := contigFrom_le bs _ _ h2
    have ih := contigFrom_cover bs _ _ h2 x
    simp only [List.mem_cons]
    constructor
    · intro hx
      by_cases hin : x < b.2.address + b.2.size
      · exact ⟨b, Or.inl rfl, by omega, hin⟩
      · obtain ⟨z, hz, hz2⟩ := ih.mp (by omega)
        exact ⟨z, Or.inr hz, hz2⟩
    · rintro ⟨z, hz | hz, hz2⟩
      · subst hz; omega
      · have := ih.mpr ⟨z, hz, hz2⟩
        omega

theorem contigFrom_chain_le :
    ∀ (bs : List Blk) (s c : Nat), ContigFrom s c bs →
      List.Chain' (fun u v : Blk => u.2.address ≤ v.2.address) bs
  | [], _, _, _ => List.chain'_nil
  | [_], _, _, _ => List.chain'_singleton _
  | b :: b2 :: bs, s, c, h => by
    obtain ⟨h1, h2, h3⟩ := h
    rw [List.chain'_cons]
    exact ⟨by omega, contigFrom_chain_le (b2 :: bs) _ _ ⟨h2, h3⟩⟩

theorem contigFrom_pre_lt :
    ∀ (pre : List Blk) (x : Blk) (rest : List Blk) (s c : Nat),
      ContigFrom s c (pre ++ x :: rest) → (∀ b ∈ pre, 0 < b.2.size) →
      ∀ b ∈ pre, b.2.address < x.2.address
  | [], _, _, _, _, _, _, b, hb => absurd hb (List.not_mem_nil b)
  | p :: pre, x, rest, s, c, h, hpos, b, hb => by
    obtain ⟨h1, h2⟩ := h
    rcases List.mem_cons.mp hb with rfl | hb2
    · have hx := (contigFrom_addr_bound (pre ++ x :: rest) _ _ h2 x (by simp)).1
      have := hpos b (by simp)
      omega
    · exact contigFrom_pre_lt pre x rest _ _ h2
        (fun z hz => hpos z (List.mem_cons_of_mem p hz)) b hb2

/-! Facts about list indexing. -/

theorem nth_split :
    ∀ (bs : List Blk) (j : Nat) (x : Blk), nth bs j = some x →
      bs = bs.take j ++ x :: bs.drop (j + 1)
  | [], j, x, h => by simp [nth] at h
  | b :: bs, 0, x, h => by
    obtain rfl : b = x := by injection h
    simp
  | b :: bs, j + 1, x, h => by
    have := nth_split bs j x h
    simpa using this

/-! The selection made by each placement strategy is a fitting hole. -/

theorem findFit_some :
    ∀ (bs : List Blk) (S : Nat) (p : List Blk) (y : Blk) (q : List Blk),
      findFit S bs = some (p, y, q) →
      bs = p ++ y :: q ∧ y.2.type = .HOLE ∧ S ≤ y.2.size
  | [], S, p, y, q, h => by simp [findFit] at h
  | x :: xs, S, p, y, q, h => by
    by_cases hc : x.2.type = .HOLE ∧ S ≤ x.2.size
    · rw [findFit, if_pos hc] at h
      simp only [Option.some.injEq, Prod.mk.injEq] at h
      obtain ⟨h1, h2, h3⟩ := h
      subst h1; subst h2; subst h3
      exact ⟨rfl, hc.1, hc.2⟩
    · rw [findFit, if_neg hc] at h
      split at h
      · simp at h
      · next p2 y2 q2 hff =>
        simp only [Option.some.injEq, Prod.mk.injEq] at h
        obtain ⟨h1, h2, h3⟩ := h
        subst h1; subst h2; subst h3
        obtain ⟨hdec, hty, hsz⟩ := findFit_some xs S p2 y2 q2 hff
        exact ⟨by rw [List.cons_append, hdec], hty, hsz⟩

theorem bfScan_some (S : Nat) (full : List Blk) :
    ∀ (xs : List Blk) (mn : Nat) (best : Option (List Blk × Blk × List Blk))
      (pre : List Blk),
      pre ++ xs = full →
      (∀ p y q, best = some (p, y, q) →
        p ++ y :: q = full ∧ y.2.type = .HOLE ∧ S ≤ y.2.size) →
      ∀ p y q, bfScan S xs mn best pre = some (p, y, q) →
        p ++ y :: q = full ∧ y.2.type = .HOLE ∧ S ≤ y.2.size
  | [], mn, best, pre, hpre, hbest, p, y, q, h =>
    hbest p y q (by simpa [bfScan] using h)
  | x :: xs, mn, best, pre, hpre, hbest, p, y, q, h => by
    rw [bfScan] at h
    split_ifs at h with hc
    · refine bfScan_some S full xs x.2.size _ (pre ++ [x]) ?_ ?_ p y q h
      · rw [List.append_assoc]; simpa using hpre
      · intro p2 y2 q2 hh
        simp only [Option.some.injEq, Prod.mk.injEq] at hh
        obtain ⟨h1, h2, h3⟩ := hh
        subst h1; subst h2; subst h3
        exact ⟨by simpa using hpre, hc.1, hc.2.1⟩
    · refine bfScan_some S full xs mn best (pre ++ [x]) ?_ hbest p y q h
      rw [List.append_assoc]; simpa using hpre

theorem wfScan_some (S : Nat) (full : List Blk) :
    ∀ (xs : List Blk) (mx : Nat) (best : Option (List Blk × Blk × List Blk))
      (pre : List Blk),
      pre ++ xs = full →
      (∀ p y q, best = some (p, y, q) →
        p ++ y :: q = full ∧ y.2.type = .HOLE ∧ S ≤ y.2.size) →
      ∀ p y q, wfScan S xs mx best pre = some (p, y, q) →
        p ++ y :: q = full ∧ y.2.type = .HOLE ∧ S ≤ y.2.size
  | [], mx, best, pre, hpre, hbest, p, y, q, h =>
    hbest p y q (by simpa [wfScan] using h)
  | x :: xs, mx, best, pre, hpre, hbest, p, y, q, h => by
    rw [wfScan] at h
    split_ifs at h with hc
    · refine wfScan_some S full xs x.2.size _ (pre ++ [x]) ?_ ?_ p y q h
      · rw [List.append_assoc]; simpa using hpre
      · intro p2 y2 q2 hh
        simp only [Option.some.injEq, Prod.mk.injEq] at hh
        obtain ⟨h1, h2, h3⟩ := hh
        subst h1; subst h2; subst h3
        exact ⟨by simpa using hpre, hc.1, hc.2.1⟩
    · refine wfScan_some S full xs mx best (pre ++ [x]) ?_ hbest p y q h
      rw [List.append_assoc]; simpa using hpre

theorem nfLoop_found (bs : List Blk) (p0 : Option Nat) (S : Nat) :
    ∀ (fuel j j2 : Nat), nfLoop bs p0 S fuel j = .ok (some j2) →
      ∃ x, nth bs j2 = some x ∧ x.2.type = .HOLE ∧ S ≤ x.2.size
  | 0, j, j2, h => by simp [nfLoop] at h
  | fuel + 1, j, j2, h => by
    rw [nfLoop] at h
    split at h
    · simp at h
    · next x hn =>
      by_cases hc : x.2.type = .PROCESS ∨ x.2.size < S
      · rw [if_pos hc] at h
        by_cases hp : posAt bs (if j + 1 = bs.length then 0 else j + 1) = p0
        · rw [if_pos hp] at h; simp at h
        · rw [if_neg hp] at h
          exact nfLoop_found bs p0 S fuel _ j2 h
      · rw [if_neg hc] at h
        push_neg at hc
        obtain ⟨hty, hsz⟩ := hc
        obtain rfl : j = j2 := by
          injection h with h4
          injection h4
        exact ⟨x, hn, not_process_eq_hole hty, hsz⟩

/-! Behaviour of `allocate_node`. -/

theorem allocate_node_fail (st : AState) (pre : List Blk) (hb : Blk)
    (post : List Blk) (S : Nat)
    (hn : (allocate_node st pre hb post S).1 = none) :
    allocate_node st pre hb post S = (none, st) ∧ st.pool = 0 := by
  by_cases h1 : st.pool = 0
  · unfold allocate_node
    rw [if_pos h1]
    exact ⟨rfl, h1⟩
  · exfalso
    unfold allocate_node at hn
    rw [if_neg h1] at hn
    split_ifs at hn <;> simp at hn

theorem allocate_node_spec (st : AState) (pre : List Blk) (hb : Blk)
    (post : List Blk) (S : Nat)
    (hinv : Inv st) (hdec : st.blocks = pre ++ hb :: post)
    (hhole : hb.2.type = .HOLE) (hfit : S ≤ hb.2.size) (hpool : st.pool ≠ 0) :
    allocate_node st pre hb post S =
      (some hb.2.address,
        if hb.2.size = S then
          { st with
              blocks := pre ++ (st.fresh, ⟨.PROCESS, hb.2.address, S⟩) :: post
              fresh := st.fresh + 1 }
        else
          { st with
              blocks := pre ++ (st.fresh, ⟨.PROCESS, hb.2.address, S⟩) ::
                (hb.1, ⟨.HOLE, hb.2.address + S, hb.2.size - S⟩) :: post
              fresh := st.fresh + 1
              pool := st.pool - 1 }) := by
  obtain ⟨hne, hcontig, hchain, haddr, hzc, hcap4, hal4⟩ := hinv
  rw [hdec] at hcontig
  obtain ⟨m, hpre, hbm, hpost⟩ := contigFrom_append_elim _ _ _ _ hcontig
  have hle := contigFrom_le _ _ _ hpost
  unfold allocate_node
  rw [if_neg hpool]
  by_cases hend : st.cap ≤ hb.2.address + S
  · have hSeq : hb.2.size = S := by omega
    have hpostnil : post = [] := by
      cases post with
      | nil => rfl
      | cons b rest2 =>
        obtain ⟨hb2, _⟩ := hpost
        rcases haddr b (by rw [hdec]; simp) with hlt | hc0
        · omega
        · have hlen := hzc hc0
          rw [hdec] at hlen
          simp [List.length_append] at hlen
          omega
    subst hpostnil
    rw [if_pos hend, if_pos hSeq]
  · rw [if_neg hend]
    by_cases hz : hb.2.size - S = 0
    · have hSeq : hb.2.size = S := by omega
      rw [if_pos hz, if_pos hSeq]
    · have hSne : ¬ hb.2.size = S := by omega
      rw [if_neg hz, if_neg hSne]

/-- The invariant holds right after initialization. -/
theorem init_inv (n : Nat) (alg : ALGORITHM) : Inv (mavalloc_init n alg) := by
  refine ⟨by simp [mavalloc_init], ⟨rfl, by simp [mavalloc_init, ContigFrom]⟩, ?_, ?_, ?_, ?_, ?_⟩
  · exact List.chain'_singleton _
  · intro b hb
    simp [mavalloc_init] at hb
    subst hb
    simp
    omega
  · intro _
    simp [mavalloc_init]
  · exact align4_mod n
  · intro b hb
    simp [mavalloc_init] at hb
    subst hb
    exact ⟨rfl, align4_mod n⟩

theorem holePairOk_elim {u v : Blk} (h : HolePairOk u v)
    (hu : u.2.type = .HOLE) : v.2.type ≠ .HOLE :=
  fun hv => h ⟨hu, hv⟩

/-- The invariant is insensitive to the cursor, pool and identity
fields. -/
theorem inv_transfer (st st2 : AState) (hinv : Inv st)
    (hb : st2.blocks = st.blocks) (hc : st2.cap = st.cap) : Inv st2 := by
  obtain ⟨h1, h2, h3, h4, h5, h6, h7⟩ := hinv
  exact ⟨by rw [hb]; exact h1, by rw [hb, hc]; exact h2, by rw [hb]; exact h3,
    by rw [hb, hc]; exact h4, by rw [hb, hc]; exact h5, by rw [hc]; exact h6,
    by rw [hb]; exact h7⟩

/-- Splitting a fitting hole preserves the invariant. -/
theorem split_shape_inv (st st2 : AState) (pre : List Blk) (hb : Blk)
    (post : List Blk) (S : Nat) (f : Nat)
    (hinv : Inv st) (hdec : st.blocks = pre ++ hb :: post)
    (hhole : hb.2.type = .HOLE) (hfit : S ≤ hb.2.size) (hS4 : S % 4 = 0)
    (hcap : st2.cap = st.cap)
    (hblocks : st2.blocks =
      if hb.2.size = S then pre ++ (f, ⟨.PROCESS, hb.2.address, S⟩) :: post
      else pre ++ (f, ⟨.PROCESS, hb.2.address, S⟩) ::
        (hb.1, ⟨.HOLE, hb.2.address + S, hb.2.size - S⟩) :: post) :
    Inv st2 := by
  obtain ⟨hne, hcontig, hchain, haddr, hzc, hcap4, hal4⟩ := hinv
  rw [hdec] at hcontig hchain haddr hal4
  obtain ⟨m, hpre, hbm, hpost⟩ := contigFrom_append_elim _ _ _ _ hcontig
  have hle := contigFrom_le _ _ _ hpost
  have hbal := hal4 hb (by simp)
  simp only [NoAdjHoles] at hchain
  rw [List.chain'_append] at hchain
  obtain ⟨hchainpre, hchainmid, hbd⟩ := hchain
  by_cases hSeq : hb.2.size = S
  · rw [if_pos hSeq] at hblocks
    refine ⟨?_, ?_, ?_, ?_, ?_, by rw [hcap]; exact hcap4, ?_⟩
    · rw [hblocks]; simp
    · rw [hblocks, hcap]
      refine contigFrom_append_intro _ _ _ m _ hpre ⟨hbm, ?_⟩
      show ContigFrom (hb.2.address + S) st.cap post
      rw [← hSeq]
      exact hpost
    · simp only [NoAdjHoles]
      rw [hblocks]
      rw [List.chain'_append]
      refine ⟨hchainpre, ?_, ?_⟩
      · rw [List.chain'_cons']
        exact ⟨fun y _ => holePairOk_left process_not_hole, hchainmid.tail⟩
      · intro z hz w hw
        simp at hw
        subst hw
        exact holePairOk_right process_not_hole
    · rw [hblocks, hcap]
      intro b hb2
      simp only [List.mem_append, List.mem_cons] at hb2
      rcases hb2 with h | h | h
      · exact haddr b (by simp [h])
      · subst h
        exact haddr hb (by simp)
      · exact haddr b (by simp [h])
    · rw [hcap]
      intro hc0
      have h9 := hzc hc0
      rw [hdec] at h9
      rw [hblocks]
      simp only [List.length_append, List.length_cons] at h9 ⊢
      omega
    · rw [hblocks]
      intro b hb2
      simp only [List.mem_append, List.mem_cons] at hb2
      rcases hb2 with h | h | h
      · exact hal4 b (by simp [h])
      · subst h
        exact ⟨hbal.1, hS4⟩
      · exact hal4 b (by simp [h])
  · rw [if_neg hSeq] at hblocks
    refine ⟨?_, ?_, ?_, ?_, ?_, by rw [hcap]; exact hcap4, ?_⟩
    · rw [hblocks]; simp
    · rw [hblocks, hcap]
      refine contigFrom_append_intro _ _ _ m _ hpre ⟨hbm, rfl, ?_⟩
      show ContigFrom (hb.2.address + S + (hb.2.size - S)) st.cap post
      have heq : hb.2.address + S + (hb.2.size - S) = hb.2.address + hb.2.size := by
        omega
      rw [heq]
      exact hpost
    · simp only [NoAdjHoles]
      rw [hblocks]
      rw [List.chain'_append]
      refine ⟨hchainpre, ?_, ?_⟩
      · rw [List.chain'_cons']
        refine ⟨fun y _ => holePairOk_left process_not_hole, ?_⟩
        rw [List.chain'_cons']
        refine ⟨?_, hchainmid.tail⟩
        intro y hy
        cases post with
        | nil => simp at hy
        | cons y2 post2 =>
          simp at hy
          subst hy
          have hpair := List.chain'_cons.mp hchainmid
          exact holePairOk_right (holePairOk_elim hpair.1 hhole)
      · intro z hz w hw
        simp at hw
        subst hw
        exact holePairOk_right process_not_hole
    · rw [hblocks, hcap]
      intro b hb2
      simp only [List.mem_append, List.mem_cons] at hb2
      rcases hb2 with h | h | h | h
      · exact haddr b (by simp [h])
      · subst h
        exact haddr hb (by simp)
      · subst h
        left
        simp only
        omega
      · exact haddr b (by simp [h])
    · rw [hcap]
      intro hc0
      exfalso
      omega
    · rw [hblocks]
      intro b hb2
      simp only [List.mem_append, List.mem_cons] at hb2
      rcases hb2 with h | h | h | h
      · exact hal4 b (by simp [h])
      · subst h
        exact ⟨hbal.1, hS4⟩
      · subst h
        refine ⟨?_, ?_⟩ <;> simp only <;> omega
      · exact hal4 b (by simp [h])

/-! Reduction of the strategy dispatch in `mavalloc_alloc`. -/

theorem mavalloc_alloc_ff (st : AState) (n : Nat) (h : st.algo = .FIRST_FIT) :
    mavalloc_alloc n (some st) =
      .ok ((alloc_first_fit st (ALIGN4 n)).1,
        some (alloc_first_fit st (ALIGN4 n)).2) := by
  rw [mavalloc_alloc, h]

theorem mavalloc_alloc_nf (st : AState) (n : Nat) (h : st.algo = .NEXT_FIT) :
    mavalloc_alloc n (some st) =
      (alloc_next_fit st (ALIGN4 n)).map (fun r => (r.1, some r.2)) := by
  rw [mavalloc_alloc, h]

theorem mavalloc_alloc_bf (st : AState) (n : Nat) (h : st.algo = .BEST_FIT) :
    mavalloc_alloc n (some st) =
      .ok ((alloc_best_fit st (ALIGN4 n)).1,
        some (alloc_best_fit st (ALIGN4 n)).2) := by
  rw [mavalloc_alloc, h]

theorem mavalloc_alloc_wf (st : AState) (n : Nat) (h : st.algo = .WORST_FIT) :
    mavalloc_alloc n (some st) =
      .ok ((alloc_worst_fit st (ALIGN4 n)).1,
        some (alloc_worst_fit st (ALIGN4 n)).2) := by
  rw [mavalloc_alloc, h]

/-- A successful `mavalloc_alloc` selects a fitting FREE block under
every strategy and rewrites the list by the split dichotomy. -/
theorem alloc_success_spec (st : AState) (n a : Nat) (s2 : Option AState)
    (hinv : Inv st)
    (h : mavalloc_alloc n (some st) = .ok (some a, s2)) :
    ∃ (pre : List Blk) (hb : Blk) (post : List Blk) (st2 : AState),
      st.blocks = pre ++ hb :: post ∧ hb.2.type = .HOLE ∧
      ALIGN4 n ≤ hb.2.size ∧ a = hb.2.address ∧ s2 = some st2 ∧
      st2.cap = st.cap ∧ st2.algo = st.algo ∧ st2.fresh = st.fresh + 1 ∧
      st2.blocks = (if hb.2.size = ALIGN4 n then
          pre ++ (st.fresh, ⟨.PROCESS, hb.2.address, ALIGN4 n⟩) :: post
        else
          pre ++ (st.fresh, ⟨.PROCESS, hb.2.address, ALIGN4 n⟩) ::
            (hb.1, ⟨.HOLE, hb.2.address + ALIGN4 n, hb.2.size - ALIGN4 n⟩) :: post) ∧
      st2.pool = (if hb.2.size = ALIGN4 n then st.pool else st.pool - 1) := by
  cases halg : st.algo
  case FIRST_FIT =>
    rw [mavalloc_alloc_ff st n halg] at h
    simp only [alloc_first_fit] at h
    split at h
    · simp at h
    · next p y q hff =>
      obtain ⟨hdec, hty, hsz⟩ := findFit_some _ _ _ _ _ hff
      have hpool : st.pool ≠ 0 := by
        intro h0
        rw [allocate_node, if_pos h0] at h
        simp at h
      rw [allocate_node_spec st p y q _ hinv hdec hty hsz hpool] at h
      simp only [CR.ok.injEq, Prod.mk.injEq, Option.some.injEq] at h
      obtain ⟨ha, hs2⟩ := h
      subst ha
      refine ⟨p, y, q, _, hdec, hty, hsz, rfl, hs2.symm, ?_⟩
      by_cases hSeq : y.2.size = ALIGN4 n <;>
        simp [hSeq, halg]
  case BEST_FIT =>
    rw [mavalloc_alloc_bf st n halg] at h
    simp only [alloc_best_fit] at h
    split at h
    · simp at h
    · next p y q hbf =>
      obtain ⟨hdec, hty, hsz⟩ := bfScan_some (ALIGN4 n) st.blocks st.blocks
        (st.cap + 1) none [] (by simp)
        (by intro p2 y2 q2 hh; simp at hh) p y q hbf
      have hpool : st.pool ≠ 0 := by
        intro h0
        rw [allocate_node, if_pos h0] at h
        simp at h
      rw [allocate_node_spec st p y q _ hinv hdec.symm hty hsz hpool] at h
      simp only [CR.ok.injEq, Prod.mk.injEq, Option.some.injEq] at h
      obtain ⟨ha, hs2⟩ := h
      subst ha
      refine ⟨p, y, q, _, hdec.symm, hty, hsz, rfl, hs2.symm, ?_⟩
      by_cases hSeq : y.2.size = ALIGN4 n <;>
        simp [hSeq, halg]
  case WORST_FIT =>
    rw [mavalloc_alloc_wf st n halg] at h
    simp only [alloc_worst_fit] at h
    split at h
    · simp at h
    · next p y q hwf =>
      obtain ⟨hdec, hty, hsz⟩ := wfScan_some (ALIGN4 n) st.blocks st.blocks
        0 none [] (by simp)
        (by intro p2 y2 q2 hh; simp at hh) p y q hwf
      have hpool : st.pool ≠ 0 := by
        intro h0
        rw [allocate_node, if_pos h0] at h
        simp at h
      rw [allocate_node_spec st p y q _ hinv hdec.symm hty hsz hpool] at h
      simp only [CR.ok.injEq, Prod.mk.injEq, Option.some.injEq] at h
      obtain ⟨ha, hs2⟩ := h
      subst ha
      refine ⟨p, y, q, _, hdec.symm, hty, hsz, rfl, hs2.symm, ?_⟩
      by_cases hSeq : y.2.size = ALIGN4 n <;>
        simp [hSeq, halg]
  case NEXT_FIT =>
    rw [mavalloc_alloc_nf st n halg] at h
    rw [alloc_next_fit] at h
    split at h
    · simp [CR.map] at h
    · next j0 hj0 =>
      split at h
      · simp [CR.map] at h
      · next hloop => simp [CR.map] at h
      · next j hloop =>
        obtain ⟨x, hx, hxty, hxsz⟩ := nfLoop_found _ _ _ _ _ _ hloop
        split at h
        · simp [CR.map] at h
        · next hb2 hnth =>
          obtain rfl : x = hb2 := by
            rw [hx] at hnth
            injection hnth
          have hdec := nth_split st.blocks j x hx
          set st1 : AState := { st with prev := posAt st.blocks j } with hst1
          have hinv1 : Inv st1 := inv_transfer st st1 hinv rfl rfl
          have hdec1 : st1.blocks = st.blocks.take j ++ x :: st.blocks.drop (j + 1) :=
            hdec
          have hpool : st1.pool ≠ 0 := by
            intro h0
            rw [allocate_node, if_pos h0] at h
            simp [CR.map] at h
          rw [allocate_node_spec st1 _ x _ _ hinv1 hdec1 hxty hxsz hpool] at h
          simp only [CR.map, CR.ok.injEq, Prod.mk.injEq, Option.some.injEq] at h
          obtain ⟨ha, hs2⟩ := h
          subst ha
          refine ⟨st.blocks.take j, x, st.blocks.drop (j + 1), _, hdec, hxty,
            hxsz, rfl, hs2.symm, ?_⟩
          by_cases hSeq : x.2.size = ALIGN4 n <;>
            simp [hSeq, hst1, halg]

/-- A failing `mavalloc_alloc` leaves the block list, pool and counter
unchanged (the next-fit cursor may move). -/
theorem alloc_none_spec (st : AState) (n : Nat) (s2 : Option AState)
    (h : mavalloc_alloc n (some st) = .ok (none, s2)) :
    ∃ st2, s2 = some st2 ∧ st2.blocks = st.blocks ∧ st2.cap = st.cap ∧
      st2.pool = st.pool ∧ st2.fresh = st.fresh ∧ st2.algo = st.algo := by
  cases halg : st.algo
  case FIRST_FIT =>
    rw [mavalloc_alloc_ff st n halg] at h
    simp only [alloc_first_fit] at h
    split at h
    · simp only [CR.ok.injEq, Prod.mk.injEq] at h
      exact ⟨st, h.2.symm, rfl, rfl, rfl, rfl, halg⟩
    · next p y q hff =>
      have hfail := allocate_node_fail st p y q (ALIGN4 n) (by
        simp only [CR.ok.injEq, Prod.mk.injEq] at h
        rw [h.1])
      rw [hfail.1] at h
      simp only [CR.ok.injEq, Prod.mk.injEq] at h
      exact ⟨st, h.2.symm, rfl, rfl, rfl, rfl, halg⟩
  case BEST_FIT =>
    rw [mavalloc_alloc_bf st n halg] at h
    simp only [alloc_best_fit] at h
    split at h
    · simp only [CR.ok.injEq, Prod.mk.injEq] at h
      exact ⟨st, h.2.symm, rfl, rfl, rfl, rfl, halg⟩
    · next p y q hbf =>
      have hfail := allocate_node_fail st p y q (ALIGN4 n) (by
        simp only [CR.ok.injEq, Prod.mk.injEq] at h
        rw [h.1])
      rw [hfail.1] at h
      simp only [CR.ok.injEq, Prod.mk.injEq] at h
      exact ⟨st, h.2.symm, rfl, rfl, rfl, rfl, halg⟩
  case WORST_FIT =>
    rw [mavalloc_alloc_wf st n halg] at h
    simp only [alloc_worst_fit] at h
    split at h
    · simp only [CR.ok.injEq, Prod.mk.injEq] at h
      exact ⟨st, h.2.symm, rfl, rfl, rfl, rfl, halg⟩
    · next p y q hwf =>
      have hfail := allocate_node_fail st p y q (ALIGN4 n) (by
        simp only [CR.ok.injEq, Prod.mk.injEq] at h
        rw [h.1])
      rw [hfail.1] at h
      simp only [CR.ok.injEq, Prod.mk.injEq] at h
      exact ⟨st, h.2.symm, rfl, rfl, rfl, rfl, halg⟩
  case NEXT_FIT =>
    rw [mavalloc_alloc_nf st n halg] at h
    rw [alloc_next_fit] at h
    split at h
    · simp [CR.map] at h
    · next j0 hj0 =>
      split at h
      · simp [CR.map] at h
      · next hloop =>
        simp only [CR.map, CR.ok.injEq, Prod.mk.injEq] at h
        exact ⟨st, h.2.symm, rfl, rfl, rfl, rfl, halg⟩
      · next j hloop =>
        split at h
        · simp [CR.map] at h
        · next hb2 hnth =>
          set st1 : AState := { st with prev := posAt st.blocks j } with hst1
          have hfail := allocate_node_fail st1 (st.blocks.take j) hb2
            (st.blocks.drop (j + 1)) (ALIGN4 n) (by
              simp only [CR.map, CR.ok.injEq, Prod.mk.injEq] at h
              rw [h.1])
          rw [hfail.1] at h
          simp only [CR.map, CR.ok.injEq, Prod.mk.injEq] at h
          exact ⟨st1, h.2.symm, rfl, rfl, rfl, rfl, halg⟩

/-! Behaviour of the `mavalloc_free` walk. -/

theorem freeScan_none (a : Nat) :
    ∀ (bs : List Blk), (∀ z ∈ bs, z.2.address ≠ a) → freeScan a bs = none
  | [], _ => rfl
  | [x], hz => by
    simp only [freeScan]
    rw [if_neg (hz x (by simp))]
  | x :: y :: rest, hz => by
    simp only [freeScan]
    rw [if_neg (hz x (by simp)), if_neg (hz y (by simp)),
      freeScan_none a (y :: rest) (fun z hzz => hz z (List.mem_cons_of_mem x hzz))]
    rfl

theorem exists_first (a : Nat) :
    ∀ (bs : List Blk), (∃ z ∈ bs, z.2.address = a) →
      ∃ pre x rest, bs = pre ++ x :: rest ∧ x.2.address = a ∧
        ∀ z ∈ pre, z.2.address ≠ a
  | [], h => by simp at h
  | b :: bs, h => by
    by_cases hb : b.2.address = a
    · exact ⟨[], b, bs, rfl, hb, by simp⟩
    · obtain ⟨z, hz, hza⟩ := h
      rcases List.mem_cons.mp hz with rfl | hz2
      · exact absurd hza hb
      · obtain ⟨pre, x, rest, hdec, hxa, hpre⟩ := exists_first a bs ⟨z, hz2, hza⟩
        refine ⟨b :: pre, x, rest, ?_, hxa, ?_⟩
        · rw [List.cons_append, ← hdec]
        · intro z2 hz2m
          rcases List.mem_cons.mp hz2m with rfl | hm
          · exact hb
          · exact hpre z2 hm

theorem dropLast_cons_cons (p q : Blk) (l : List Blk) :
    (p :: q :: l).dropLast = p :: (q :: l).dropLast := rfl

theorem getLast?_cons_ne_nil (q : Blk) (l : List Blk) :
    ∃ p, (q :: l).getLast? = some p := by
  induction l generalizing q with
  | nil => exact ⟨q, rfl⟩
  | cons r l ih =>
    obtain ⟨p, hp⟩ := ih r
    exact ⟨p, by rw [List.getLast?_cons_cons, hp]⟩

theorem freeScan_prefix (a : Nat) :
    ∀ (pre : List Blk) (x : Blk) (rest : List Blk),
      (∀ z ∈ pre, z.2.address ≠ a) → x.2.address = a →
      freeScan a (pre ++ x :: rest) = some (freeResult pre x rest)
  | [], x, rest, _, hx => by
    cases rest with
    | nil =>
      simp only [List.nil_append, freeScan, freeResult, List.getLast?_nil]
      rw [if_pos hx]
    | cons y r2 =>
      simp only [List.nil_append, freeScan, freeResult, List.getLast?_nil]
      rw [if_pos hx]
  | [p], x, rest, hpre, hx => by
    have hp := hpre p (by simp)
    simp only [List.cons_append, List.nil_append, freeScan, freeResult]
    rw [if_neg hp, if_pos hx]
    simp only [List.getLast?_singleton, List.dropLast_single]
    by_cases hph : p.2.type = .HOLE <;> simp [hph]
  | p :: q :: pre2, x, rest, hpre, hx => by
    have hp := hpre p (by simp)
    have hq := hpre q (by simp)
    have hrec := freeScan_prefix a (q :: pre2) x rest
      (fun z hz => hpre z (List.mem_cons_of_mem p hz)) hx
    simp only [List.cons_append] at hrec ⊢
    rw [freeScan]
    rw [if_neg hp, if_neg hq]
    rw [hrec]
    obtain ⟨pl, hpl⟩ := getLast?_cons_ne_nil q pre2
    by_cases hplh : pl.2.type = .HOLE <;>
      simp [freeResult, List.getLast?_cons_cons, hpl, dropLast_cons_cons, hplh]

theorem mavalloc_free_eq (st : AState) (a : Nat) (pre : List Blk) (x : Blk)
    (rest : List Blk) (hdec : st.blocks = pre ++ x :: rest)
    (hpre : ∀ z ∈ pre, z.2.address ≠ a) (hx : x.2.address = a) :
    mavalloc_free a (some st) =
      some { st with blocks := (freeResult pre x rest).1
                     pool := st.pool + (freeResult pre x rest).2 } := by
  simp only [mavalloc_free]
  rw [hdec, freeScan_prefix a pre x rest hpre hx]

theorem mavalloc_free_miss (st : AState) (a : Nat)
    (h : ∀ z ∈ st.blocks, z.2.address ≠ a) :
    mavalloc_free a (some st) = some st := by
  simp only [mavalloc_free]
  rw [freeScan_none a st.blocks h]

theorem getLast?_none_eq_nil :
    ∀ (l : List Blk), l.getLast? = none → l = []
  | [], _ => rfl
  | q :: l, h => by
    obtain ⟨p, hp⟩ := getLast?_cons_ne_nil q l
    rw [hp] at h
    simp at h

theorem getLast?_decomp :
    ∀ (l : List Blk) (p : Blk), l.getLast? = some p → l = l.dropLast ++ [p]
  | [], p, h => by simp at h
  | [q], p, h => by
    rw [List.getLast?_singleton] at h
    injection h with h2
    rw [h2]
    rfl
  | q :: r :: l, p, h => by
    rw [List.getLast?_cons_cons] at h
    have := getLast?_decomp (r :: l) p h
    rw [dropLast_cons_cons, List.cons_append, ← this]

theorem holePairOk_elim_left {u v : Blk} (h : HolePairOk u v)
    (hv : v.2.type = .HOLE) : u.2.type ≠ .HOLE :=
  fun hu => h ⟨hu, hv⟩

/-- Membership in the trailing-merge result, without hypotheses. -/
theorem mergeNextHole_mem (w : Blk) (rest : List Blk) :
    ∀ b ∈ (mergeNextHole w rest).1, b ∈ rest ∨ b.2.size = w.2.size ∨
      ∃ y ∈ rest, b.2.size = w.2.size + y.2.size := by
  intro b hb
  cases rest with
  | nil =>
    simp [mergeNextHole] at hb
    rw [hb]
    right; left; rfl
  | cons y rest2 =>
    by_cases hy : y.2.type = .HOLE
    · rw [mergeNextHole, if_pos hy] at hb
      rcases List.mem_cons.mp hb with rfl | hm
      · right; right
        exact ⟨y, by simp, rfl⟩
      · left
        exact List.mem_cons_of_mem y hm
    · rw [mergeNextHole, if_neg hy] at hb
      rcases List.mem_cons.mp hb with rfl | hm
      · right; left; rfl
      · left; exact hm

/-- Structure of the trailing-merge result: it covers the interval from
the candidate block to the end, keeps the no-adjacent-FREE chain, keeps
the candidate's kind at its head, and grows no new offsets. -/
theorem mergeNextHole_seg (w : Blk) (rest : List Blk) (c : Nat)
    (hcontig : ContigFrom (w.2.address + w.2.size) c rest)
    (hchain : List.Chain' HolePairOk rest) :
    ContigFrom w.2.address c (mergeNextHole w rest).1 ∧
    List.Chain' HolePairOk (mergeNextHole w rest).1 ∧
    (∀ z, (mergeNextHole w rest).1.head? = some z → z.2.type = w.2.type) ∧
    (∀ b ∈ (mergeNextHole w rest).1, b ∈ rest ∨
      (b.1 = w.1 ∧ b.2.type = w.2.type ∧ b.2.address = w.2.address)) ∧
    (mergeNextHole w rest).1.length ≤ 1 + rest.length ∧
    (mergeNextHole w rest).1 ≠ [] ∧
    (∀ b ∈ (mergeNextHole w rest).1, b.2.address % 4 = 0 ∨ b ∈ rest ∨
      b.2.address = w.2.address) := by
  cases rest with
  | nil =>
    simp only [mergeNextHole]
    refine ⟨⟨rfl, hcontig⟩, List.chain'_singleton _, ?_, ?_, by simp, by simp, ?_⟩
    · intro z hz
      simp at hz
      rw [hz]
    · intro b hb
      simp at hb
      rw [hb]
      exact Or.inr ⟨rfl, rfl, rfl⟩
    · intro b hb
      simp at hb
      rw [hb]
      right; right; rfl
  | cons y rest2 =>
    obtain ⟨hy, hrest2⟩ := hcontig
    by_cases hyh : y.2.type = .HOLE
    · rw [mergeNextHole, if_pos hyh]
      refine ⟨⟨rfl, ?_⟩, ?_, ?_, ?_, by simp, by simp, ?_⟩
      · show ContigFrom (w.2.address + (w.2.size + y.2.size)) c rest2
        have heq : w.2.address + (w.2.size + y.2.size) = y.2.address + y.2.size := by
          omega
        rw [heq]
        exact hrest2
      · rw [List.chain'_cons']
        refine ⟨?_, hchain.tail⟩
        intro z hz
        cases rest2 with
        | nil => simp at hz
        | cons z2 rest3 =>
          simp at hz
          subst hz
          exact holePairOk_right (holePairOk_elim (List.chain'_cons.mp hchain).1 hyh)
      · intro z hz
        simp at hz
        subst hz
        rfl
      · intro b hb
        rcases List.mem_cons.mp hb with rfl | hm
        · exact Or.inr ⟨rfl, rfl, rfl⟩
        · exact Or.inl (List.mem_cons_of_mem y hm)
      · intro b hb
        rcases List.mem_cons.mp hb with rfl | hm
        · right; right; rfl
        · right; left; exact List.mem_cons_of_mem y hm
    · rw [mergeNextHole, if_neg hyh]
      refine ⟨⟨rfl, hy, hrest2⟩, ?_, ?_, ?_, by simp; omega, by simp, ?_⟩
      · rw [List.chain'_cons]
        exact ⟨holePairOk_right hyh, hchain⟩
      · intro z hz
        simp at hz
        rw [hz]
      · intro b hb
        rcases List.mem_cons.mp hb with rfl | hm
        · exact Or.inr ⟨rfl, rfl, rfl⟩
        · exact Or.inl hm
      · intro b hb
        rcases List.mem_cons.mp hb with rfl | hm
        · right; right; rfl
        · right; left; exact hm

/-- `mavalloc_free` preserves the invariant. -/
theorem free_inv (st : AState) (a : Nat) (hinv : Inv st) :
    ∀ st2, mavalloc_free a (some st) = some st2 → Inv st2 := by
  intro st2 h2
  by_cases hex : ∃ z ∈ st.blocks, z.2.address = a
  · obtain ⟨pre, x, rest, hdec, hx, hpre⟩ := exists_first a st.blocks hex
    rw [mavalloc_free_eq st a pre x rest hdec hpre hx] at h2
    injection h2 with h3
    rw [← h3]
    obtain ⟨hne, hcontig, hchain, haddr, hzc, hcap4, hal4⟩ := hinv
    rw [hdec] at hcontig hchain haddr hal4
    simp only [NoAdjHoles] at hchain
    cases hgl : pre.getLast? with
    | none =>
      obtain rfl : pre = [] := getLast?_none_eq_nil pre hgl
      simp only [List.nil_append] at hcontig hchain haddr hal4
      obtain ⟨hx0, hrest⟩ := hcontig
      have hfr : freeResult [] x rest = mergeNextHole (retypeHole x) rest := rfl
      obtain ⟨hcg, hch, hhead, hmem, hlen, hne2, _⟩ :=
        mergeNextHole_seg (retypeHole x) rest st.cap hrest hchain.tail
      have hsz := mergeNextHole_mem (retypeHole x) rest
      refine ⟨?_, ?_, ?_, ?_, ?_, hcap4, ?_⟩
      · show (freeResult [] x rest).1 ≠ []
        rw [hfr]
        exact hne2
      · show ContigFrom 0 st.cap (freeResult [] x rest).1
        rw [hfr]
        have hw0 : (retypeHole x).2.address = 0 := hx0
        rw [← hw0]
        exact hcg
      · show NoAdjHoles (freeResult [] x rest).1
        rw [NoAdjHoles, hfr]
        exact hch
      · show AddrOk st.cap (freeResult [] x rest).1
        rw [hfr]
        intro b hb
        rcases hmem b hb with hm | ⟨_, _, hba⟩
        · exact haddr b (List.mem_cons_of_mem x hm)
        · rw [hba]
          exact haddr x (by simp)
      · intro hc0
        have h9 := hzc hc0
        rw [hdec] at h9
        show (freeResult [] x rest).1.length ≤ 1
        rw [hfr]
        simp only [List.nil_append, List.length_cons] at h9
        omega
      · show Align4Ok (freeResult [] x rest).1
        rw [hfr]
        intro b hb
        rcases hmem b hb with hm | ⟨_, _, hba⟩
        · exact hal4 b (List.mem_cons_of_mem x hm)
        · refine ⟨by rw [hba]; exact (hal4 x (by simp)).1, ?_⟩
          rcases hsz b hb with hm | hbs | ⟨y, hy, hbs⟩
          · exact (hal4 b (List.mem_cons_of_mem x hm)).2
          · rw [hbs]
            exact (hal4 x (by simp)).2
          · rw [hbs]
            have h4x := (hal4 x (by simp)).2
            have h4y := (hal4 y (List.mem_cons_of_mem x hy)).2
            show (x.2.size + y.2.size) % 4 = 0
            omega
    | some p =>
      have hpd := getLast?_decomp pre p hgl
      by_cases hph : p.2.type = .HOLE
      · -- situation c: absorb x into the FREE predecessor p
        rw [hpd, List.append_assoc, List.singleton_append]
          at hcontig hchain haddr hal4
        obtain ⟨m, hpdC, hcontig2⟩ :=
          contigFrom_append_elim pre.dropLast (p :: x :: rest) 0 st.cap hcontig
        obtain ⟨hpm, hxm, hrest⟩ := hcontig2
        rw [List.chain'_append] at hchain
        obtain ⟨hchpd, hchmid, hbdy⟩ := hchain
        have hfr : (freeResult pre x rest).1 = pre.dropLast ++
            (mergeNextHole (p.1, ⟨p.2.type, p.2.address, p.2.size + x.2.size⟩) rest).1 ∧
            (freeResult pre x rest).2 =
            (mergeNextHole (p.1, ⟨p.2.type, p.2.address, p.2.size + x.2.size⟩) rest).2 + 1 := by
          simp only [freeResult, hgl]
          rw [if_pos hph]
          exact ⟨rfl, rfl⟩
        have hws : ((p.1, ⟨p.2.type, p.2.address, p.2.size + x.2.size⟩) : Blk).2.address +
            ((p.1, ⟨p.2.type, p.2.address, p.2.size + x.2.size⟩) : Blk).2.size =
            x.2.address + x.2.size := by
          simp only
          omega
        obtain ⟨hcg, hch, hhead, hmem, hlen, hne2, _⟩ :=
          mergeNextHole_seg (p.1, ⟨p.2.type, p.2.address, p.2.size + x.2.size⟩)
            rest st.cap (by rw [hws]; exact hrest) hchmid.tail.tail
        have hsz := mergeNextHole_mem
          (p.1, ⟨p.2.type, p.2.address, p.2.size + x.2.size⟩) rest
        refine ⟨?_, ?_, ?_, ?_, ?_, hcap4, ?_⟩
        · show (freeResult pre x rest).1 ≠ []
          rw [hfr.1]
          intro hemp
          rw [List.append_eq_nil] at hemp
          exact hne2 hemp.2
        · show ContigFrom 0 st.cap (freeResult pre x rest).1
          rw [hfr.1]
          refine contigFrom_append_intro _ _ _ m _ hpdC ?_
          have hwp : ((p.1, ⟨p.2.type, p.2.address, p.2.size + x.2.size⟩) : Blk).2.address
              = m := hpm
          rw [← hwp]
          exact hcg
        · show NoAdjHoles (freeResult pre x rest).1
          rw [NoAdjHoles, hfr.1, List.chain'_append]
          refine ⟨hchpd, hch, ?_⟩
          intro z hz zz hzz
          have hzp := hbdy z hz p (by simp)
          have hzzty := hhead zz hzz
          exact holePairOk_left (holePairOk_elim_left hzp hph)
        · show AddrOk st.cap (freeResult pre x rest).1
          rw [hfr.1]
          intro b hb
          rcases List.mem_append.mp hb with hm | hm
          · exact haddr b (by simp [hm])
          · rcases hmem b hm with hm2 | ⟨_, _, hba⟩
            · exact haddr b (by simp [hm2])
            · rw [hba]
              exact haddr p (by simp)
        · intro hc0
          have h9 := hzc hc0
          rw [hdec, hpd] at h9
          show (freeResult pre x rest).1.length ≤ 1
          rw [hfr.1]
          simp only [List.length_append, List.length_cons, List.length_singleton] at h9 ⊢
          omega
        · show Align4Ok (freeResult pre x rest).1
          rw [hfr.1]
          intro b hb
          rcases List.mem_append.mp hb with hm | hm
          · exact hal4 b (by simp [hm])
          · have h4p := hal4 p (by simp)
            have h4x := hal4 x (by simp)
            refine ⟨?_, ?_⟩
            · rcases hmem b hm with hm2 | ⟨_, _, hba⟩
              · exact (hal4 b (by simp [hm2])).1
              · rw [hba]
                exact h4p.1
            · rcases hsz b hm with hm2 | hbs | ⟨y, hy, hbs⟩
              · exact (hal4 b (by simp [hm2])).2
              · rw [hbs]
                show (p.2.size + x.2.size) % 4 = 0
                omega
              · rw [hbs]
                have h4y := (hal4 y (by simp [hy])).2
                show (p.2.size + x.2.size + y.2.size) % 4 = 0
                omega
      · -- situation a: the predecessor is ALLOCATED, retype x in place
        obtain ⟨m, hpreC, hcontig2⟩ :=
          contigFrom_append_elim pre (x :: rest) 0 st.cap hcontig
        obtain ⟨hxm, hrest⟩ := hcontig2
        rw [List.chain'_append] at hchain
        obtain ⟨hchpre, hchmid, hbdy⟩ := hchain
        have hfr : (freeResult pre x rest).1 = pre ++
            (mergeNextHole (retypeHole x) rest).1 ∧
            (freeResult pre x rest).2 = (mergeNextHole (retypeHole x) rest).2 := by
          simp only [freeResult, hgl]
          rw [if_neg hph]
          exact ⟨rfl, rfl⟩
        obtain ⟨hcg, hch, hhead, hmem, hlen, hne2, _⟩ :=
          mergeNextHole_seg (retypeHole x) rest st.cap hrest hchmid.tail
        have hsz := mergeNextHole_mem (retypeHole x) rest
        refine ⟨?_, ?_, ?_, ?_, ?_, hcap4, ?_⟩
        · show (freeResult pre x rest).1 ≠ []
          rw [hfr.1]
          intro hemp
          rw [List.append_eq_nil] at hemp
          exact hne2 hemp.2
        · show ContigFrom 0 st.cap (freeResult pre x rest).1
          rw [hfr.1]
          refine contigFrom_append_intro _ _ _ m _ hpreC ?_
          have hwp : (retypeHole x).2.address = m := hxm
          rw [← hwp]
          exact hcg
        · show NoAdjHoles (freeResult pre x rest).1
          rw [NoAdjHoles, hfr.1, List.chain'_append]
          refine ⟨hchpre, hch, ?_⟩
          intro z hz zz hzz
          have hzeq : z = p := by
            rw [hgl] at hz
            simp at hz
            exact hz.symm
          rw [hzeq]
          exact holePairOk_left hph
        · show AddrOk st.cap (freeResult pre x rest).1
          rw [hfr.1]
          intro b hb
          rcases List.mem_append.mp hb with hm | hm
          · exact haddr b (by simp [hm])
          · rcases hmem b hm with hm2 | ⟨_, _, hba⟩
            · exact haddr b (by simp [hm2])
            · rw [hba]
              exact haddr x (by simp)
        · intro hc0
          have h9 := hzc hc0
          rw [hdec] at h9
          show (freeResult pre x rest).1.length ≤ 1
          rw [hfr.1]
          simp only [List.length_append, List.length_cons] at h9 ⊢
          omega
        · show Align4Ok (freeResult pre x rest).1
          rw [hfr.1]
          intro b hb
          rcases List.mem_append.mp hb with hm | hm
          · exact hal4 b (by simp [hm])
          · have h4x := hal4 x (by simp)
            refine ⟨?_, ?_⟩
            · rcases hmem b hm with hm2 | ⟨_, _, hba⟩
              · exact (hal4 b (by simp [hm2])).1
              · rw [hba]
                exact h4x.1
            · rcases hsz b hm with hm2 | hbs | ⟨y, hy, hbs⟩
              · exact (hal4 b (by simp [hm2])).2
              · rw [hbs]
                exact h4x.2
              · rw [hbs]
                have h4y := (hal4 y (by simp [hy])).2
                show (x.2.size + y.2.size) % 4 = 0
                omega
  · push_neg at hex
    rw [mavalloc_free_miss st a hex] at h2
    injection h2 with h3
    rw [← h3]
    exact hinv

/-- Every reachable initialized state satisfies the structural
invariant. -/
theorem reach_inv (s : Option AState) (hr : Reach s) :
    ∀ st, s = some st → Inv st := by
  induction hr with
  | boot =>
    intro st h
    simp at h
  | init n alg =>
    intro st h
    injection h with h2
    rw [← h2]
    exact init_inv n alg
  | alloc s n r s2 hr2 heq ih =>
    intro st2 h2
    subst h2
    cases s with
    | none =>
      rw [mavalloc_alloc] at heq
      simp at heq
    | some st =>
      have hinv := ih st rfl
      cases r with
      | none =>
        obtain ⟨st3, hsome, hb, hc, _, _, _⟩ := alloc_none_spec st n _ heq
        injection hsome with h3
        rw [h3]
        exact inv_transfer st st3 hinv hb hc
      | some a2 =>
        obtain ⟨pre, hb, post, st3, hdec, hty, hsz, _, hsome, hcap, _, _,
          hblocks, _⟩ := alloc_success_spec st n a2 _ hinv heq
        injection hsome with h3
        rw [h3]
        exact split_shape_inv st st3 pre hb post (ALIGN4 n) st.fresh hinv hdec
          hty hsz (align4_mod n) hcap hblocks
  | free s a hr2 ih =>
    intro st2 h2
    cases s with
    | none => simp [mavalloc_free] at h2
    | some st => exact free_inv st a (ih st rfl) st2 h2
  | destroy s hr2 ih =>
    intro st2 h2
    simp [mavalloc_destroy] at h2

theorem reachpos_reach (s : Option AState) (h : ReachPos s) : Reach s := by
  induction h with
  | init n alg hn => exact Reach.init n alg
  | alloc s n r s2 h2 hn heq ih => exact Reach.alloc s n r s2 ih heq
  | free s a h2 ih => exact Reach.free s a ih

/-- `mavalloc_free` preserves positivity of all block lengths. -/
theorem free_allpos (st : AState) (a : Nat) (hpos : AllPos st.blocks) :
    ∀ st2, mavalloc_free a (some st) = some st2 → AllPos st2.blocks := by
  intro st2 h2
  by_cases hex : ∃ z ∈ st.blocks, z.2.address = a
  · obtain ⟨pre, x, rest, hdec, hx, hpre⟩ := exists_first a st.blocks hex
    rw [mavalloc_free_eq st a pre x rest hdec hpre hx] at h2
    injection h2 with h3
    rw [← h3]
    rw [hdec] at hpos
    show AllPos (freeResult pre x rest).1
    intro b hb
    cases hgl : pre.getLast? with
    | none =>
      obtain rfl : pre = [] := getLast?_none_eq_nil pre hgl
      have hfr : (freeResult [] x rest).1 = (mergeNextHole (retypeHole x) rest).1 :=
        rfl
      rw [hfr] at hb
      rcases mergeNextHole_mem (retypeHole x) rest b hb with hm | hbs | ⟨y, hy, hbs⟩
      · exact hpos b (by simp [hm])
      · rw [hbs]
        exact hpos x (by simp)
      · rw [hbs]
        have := hpos x (by simp)
        show 0 < x.2.size + y.2.size
        omega
    | some p =>
      have hposp := hpos p (by rw [getLast?_decomp pre p hgl]; simp)
      have hposx : 0 < x.2.size := hpos x (by simp)
      by_cases hph : p.2.type = .HOLE
      · have hfr : (freeResult pre x rest).1 = pre.dropLast ++
            (mergeNextHole (p.1, ⟨p.2.type, p.2.address, p.2.size + x.2.size⟩) rest).1 := by
          simp only [freeResult, hgl]
          rw [if_pos hph]
        rw [hfr] at hb
        rcases List.mem_append.mp hb with hm | hm
        · refine hpos b ?_
          rw [getLast?_decomp pre p hgl]
          simp [hm]
        · rcases mergeNextHole_mem _ rest b hm with hm2 | hbs | ⟨y, hy, hbs⟩
          · exact hpos b (by simp [hm2])
          · rw [hbs]
            show 0 < p.2.size + x.2.size
            omega
          · rw [hbs]
            show 0 < p.2.size + x.2.size + y.2.size
            omega
      · have hfr : (freeResult pre x rest).1 = pre ++
            (mergeNextHole (retypeHole x) rest).1 := by
          simp only [freeResult, hgl]
          rw [if_neg hph]
        rw [hfr] at hb
        rcases List.mem_append.mp hb with hm | hm
        · exact hpos b (by simp [hm])
        · rcases mergeNextHole_mem _ rest b hm with hm2 | hbs | ⟨y, hy, hbs⟩
          · exact hpos b (by simp [hm2])
          · rw [hbs]
            exact hposx
          · rw [hbs]
            show 0 < x.2.size + y.2.size
            omega
  · push_neg at hex
    rw [mavalloc_free_miss st a hex] at h2
    injection h2 with h3
    rw [← h3]
    exact hpos

/-- In a run with positive capacity and positive requests, every block
of every reachable state has positive length. -/
theorem reachpos_allpos (s : Option AState) (h : ReachPos s) :
    ∀ st, s = some st → AllPos st.blocks := by
  induction h with
  | init n alg hn =>
    intro st h2
    injection h2 with h3
    rw [← h3]
    intro b hb
    simp [mavalloc_init] at hb
    rw [hb]
    simpa using align4_pos n hn
  | alloc s n r s2 h2 hn heq ih =>
    intro st2 hs2
    subst hs2
    cases s with
    | none =>
      rw [mavalloc_alloc] at heq
      simp at heq
    | some st =>
      have hpos := ih st rfl
      have hinv := reach_inv _ (reachpos_reach _ h2) st rfl
      cases r with
      | none =>
        obtain ⟨st3, hsome, hb, _, _, _, _⟩ := alloc_none_spec st n _ heq
        injection hsome with h3
        rw [h3, hb]
        exact hpos
      | some a2 =>
        obtain ⟨pre, hb, post, st3, hdec, hty, hsz, _, hsome, _, _, _,
          hblocks, _⟩ := alloc_success_spec st n a2 _ hinv heq
        injection hsome with h3
        rw [h3]
        rw [hdec] at hpos
        intro b hbm
        rw [hblocks] at hbm
        by_cases hSeq : hb.2.size = ALIGN4 n
        · rw [if_pos hSeq] at hbm
          rcases List.mem_append.mp hbm with hm | hm
          · exact hpos b (by simp [hm])
          · rcases List.mem_cons.mp hm with rfl | hm2
            · simpa using align4_pos n hn
            · exact hpos b (by simp [hm2])
        · rw [if_neg hSeq] at hbm
          rcases List.mem_append.mp hbm with hm | hm
          · exact hpos b (by simp [hm])
          · rcases List.mem_cons.mp hm with rfl | hm2
            · simpa using align4_pos n hn
            · rcases List.mem_cons.mp hm2 with rfl | hm3
              · show 0 < hb.2.size - ALIGN4 n
                omega
              · exact hpos b (by simp [hm3])
  | free s a h2 ih =>
    intro st2 hs2
    cases s with
    | none => simp [mavalloc_free] at hs2
    | some st => exact free_allpos st a (ih st rfl) st2 hs2

/-! The allocate-then-free round trip. -/

theorem freeResult_sitA (pre : List Blk) (x : Blk) (rest : List Blk)
    (hpred : ∀ p, pre.getLast? = some p → p.2.type ≠ .HOLE) :
    freeResult pre x rest = (pre ++ (mergeNextHole (retypeHole x) rest).1,
      (mergeNextHole (retypeHole x) rest).2) := by
  cases hgl : pre.getLast? with
  | none =>
    obtain rfl : pre = [] := getLast?_none_eq_nil pre hgl
    simp only [freeResult, List.getLast?_nil, List.nil_append]
  | some p =>
    simp only [freeResult, hgl]
    rw [if_neg (hpred p hgl)]

theorem mergeNextHole_nomerge (w : Blk) (rest : List Blk)
    (h : ∀ y, rest.head? = some y → y.2.type ≠ .HOLE) :
    mergeNextHole w rest = (w :: rest, 0) := by
  cases rest with
  | nil => rfl
  | cons y rest2 => rw [mergeNextHole, if_neg (h y rfl)]

/-- Freeing a PROCESS block whose predecessor is not a FREE block and
whose successor is not a FREE block just retypes it. -/
theorem freeResult_retype (pre : List Blk) (i1 ad s1 : Nat) (rest : List Blk)
    (hpred : ∀ p, pre.getLast? = some p → p.2.type ≠ .HOLE)
    (hhead : ∀ y, rest.head? = some y → y.2.type ≠ .HOLE) :
    freeResult pre (i1, ⟨.PROCESS, ad, s1⟩) rest =
      (pre ++ (i1, ⟨.HOLE, ad, s1⟩) :: rest, 0) := by
  rw [freeResult_sitA pre _ rest hpred, mergeNextHole_nomerge _ rest hhead]
  rfl

/-- Freeing a PROCESS block whose predecessor is not a FREE block and
whose successor is a FREE block merges the two. -/
theorem freeResult_merge (pre : List Blk) (i1 ad s1 i2 s2 : Nat)
    (rest2 : List Blk)
    (hpred : ∀ p, pre.getLast? = some p → p.2.type ≠ .HOLE) :
    freeResult pre (i1, ⟨.PROCESS, ad, s1⟩)
        ((i2, ⟨.HOLE, ad + s1, s2⟩) :: rest2) =
      (pre ++ (i1, ⟨.HOLE, ad, s1 + s2⟩) :: rest2, 1) := by
  rw [freeResult_sitA pre _ _ hpred]
  rw [mergeNextHole]
  rw [if_pos (show ((i2, ⟨.HOLE, ad + s1, s2⟩) : Blk).2.type = .HOLE from rfl)]
  rfl

theorem mavalloc_free_eq2 (st : AState) (a : Nat) (pre : List Blk) (x : Blk)
    (rest os : List Blk) (k : Nat) (hdec : st.blocks = pre ++ x :: rest)
    (hpre : ∀ z ∈ pre, z.2.address ≠ a) (hx : x.2.address = a)
    (hfr : freeResult pre x rest = (os, k)) :
    mavalloc_free a (some st) =
      some { st with blocks := os, pool := st.pool + k } := by
  rw [mavalloc_free_eq st a pre x rest hdec hpre hx, hfr]

/-- Allocating and immediately freeing the returned address restores the
(kind, offset, length) content of the block list, provided every block
has positive length. -/
theorem roundtrip_core (st st2 : AState) (n a : Nat)
    (hinv : Inv st) (hpos : AllPos st.blocks) (hn : 0 < n)
    (h : mavalloc_alloc n (some st) = .ok (some a, some st2)) :
    (mavalloc_free a (some st2)).map (fun s3 => triples s3.blocks) =
      some (triples st.blocks) := by
  obtain ⟨pre, hb, post, st2b, hdec, hty, hsz, ha, hsome, hcap, halgo, hfresh,
    hblocks, hpool⟩ := alloc_success_spec st n a _ hinv h
  obtain rfl : st2 = st2b := by injection hsome
  obtain ⟨hne, hcontig, hchain, _, _, _, _⟩ := hinv
  rw [hdec] at hcontig hchain hpos
  simp only [NoAdjHoles] at hchain
  rw [List.chain'_append] at hchain
  obtain ⟨hchpre, hchmid, hbdy⟩ := hchain
  have hpred : ∀ p, pre.getLast? = some p → p.2.type ≠ .HOLE := by
    intro p hp
    exact holePairOk_elim_left (hbdy p (Option.mem_def.mpr hp) hb
      (Option.mem_def.mpr rfl)) hty
  have hpre_ne : ∀ z ∈ pre, z.2.address ≠ a := by
    intro z hz
    have := contigFrom_pre_lt pre hb post 0 st.cap hcontig
      (fun b hbm => hpos b (by simp [hbm])) z hz
    rw [ha]
    omega
  have hS := align4_pos n hn
  by_cases hSeq : hb.2.size = ALIGN4 n
  · rw [if_pos hSeq] at hblocks
    have hposthead : ∀ y, post.head? = some y → y.2.type ≠ .HOLE := by
      intro y hy
      cases post with
      | nil => simp at hy
      | cons y2 post2 =>
        injection hy with hy2
        rw [← hy2]
        exact holePairOk_elim (List.chain'_cons.mp hchmid).1 hty
    have hfree := mavalloc_free_eq2 st2 a pre
      (st.fresh, ⟨.PROCESS, hb.2.address, ALIGN4 n⟩) post _ _ hblocks hpre_ne
      ha.symm (freeResult_retype pre st.fresh hb.2.address (ALIGN4 n) post
        hpred hposthead)
    rw [hfree]
    show some (triples (pre ++ (st.fresh, ⟨.HOLE, hb.2.address, ALIGN4 n⟩) :: post))
      = some (triples st.blocks)
    rw [hdec]
    simp only [triples, List.map_append, List.map_cons, Option.some.injEq]
    rw [hty, hSeq]
  · rw [if_neg hSeq] at hblocks
    have hfree := mavalloc_free_eq2 st2 a pre
      (st.fresh, ⟨.PROCESS, hb.2.address, ALIGN4 n⟩)
      ((hb.1, ⟨.HOLE, hb.2.address + ALIGN4 n, hb.2.size - ALIGN4 n⟩) :: post)
      _ _ hblocks hpre_ne ha.symm
      (freeResult_merge pre st.fresh hb.2.address (ALIGN4 n) hb.1
        (hb.2.size - ALIGN4 n) post hpred)
    rw [hfree]
    show some (triples (pre ++
        (st.fresh, ⟨.HOLE, hb.2.address, ALIGN4 n + (hb.2.size - ALIGN4 n)⟩) :: post))
      = some (triples st.blocks)
    have hszsum : ALIGN4 n + (hb.2.size - ALIGN4 n) = hb.2.size := by omega
    rw [hszsum, hdec]
    simp only [triples, List.map_append, List.map_cons, Option.some.injEq]
    rw [hty]

/-! Claim theorems. -/

/-- C1 (counterexample): in the reachable state `zSt1`, produced by
`init(16, FIRST_FIT)` followed by `alloc(0)`, block offsets do not
strictly ascend — the zero-length ALLOCATED block shares offset 0 with
the following FREE block — so the claim as stated fails. -/
theorem C1_strict_ascent_counterexample :
    Reach (some zSt1) ∧ ¬ StrictAsc zSt1.blocks := by
  refine ⟨?_, by decide⟩
  exact Reach.alloc _ 0 (some 0) _ (Reach.init 16 .FIRST_FIT) (by decide)

/-- C1 (amended): in every reachable initialized state the block list is
nonempty, begins at offset 0, each block begins exactly where the
previous one ends, and the last block ends at the aligned capacity, so
the union of the half-open block intervals is exactly [0, capacity) with
no gap and no overlap; offsets ascend weakly (strictness can fail only
at zero-length blocks). -/
theorem C1_exact_tiling (st : AState) (hr : Reach (some st)) :
    st.blocks ≠ [] ∧ ContigFrom 0 st.cap st.blocks ∧
    (∀ x : Nat, x < st.cap ↔
      ∃ b ∈ st.blocks, b.2.address ≤ x ∧ x < b.2.address + b.2.size) ∧
    List.Chain' (fun u v : Blk => u.2.address ≤ v.2.address) st.blocks := by
  obtain ⟨hne, hcontig, _, _, _, _, _⟩ := reach_inv _ hr st rfl
  refine ⟨hne, hcontig, ?_, contigFrom_chain_le _ _ _ hcontig⟩
  intro x
  have h := contigFrom_cover _ _ _ hcontig x
  simpa using h

/-- Witness for the amended C1 at the state after `init(16, FIRST_FIT)`,
with the interval characterization evaluated at offset 5. -/
theorem C1_exact_tiling_witness :
    (mavalloc_init 16 .FIRST_FIT).blocks ≠ [] ∧
    ContigFrom 0 (ALIGN4 16) (mavalloc_init 16 .FIRST_FIT).blocks ∧
    ((5 : Nat) < ALIGN4 16 ↔ ∃ b ∈ (mavalloc_init 16 .FIRST_FIT).blocks,
      b.2.address ≤ 5 ∧ 5 < b.2.address + b.2.size) := by
  obtain ⟨h1, h2, h3, _⟩ := C1_exact_tiling (mavalloc_init 16 .FIRST_FIT)
    (Reach.init 16 .FIRST_FIT)
  exact ⟨h1, h2, h3 5⟩

/-- C2: in every reachable initialized state no two consecutive blocks
of the list are both FREE; since reachability is closed under `free`,
the invariant holds again after every free call. -/
theorem C2_no_adjacent_free (st : AState) (hr : Reach (some st)) :
    NoAdjHoles st.blocks :=
  (reach_inv _ hr st rfl).2.2.1

/-- Witness for C2 at the state after `init(16, FIRST_FIT)`. -/
theorem C2_no_adjacent_free_witness :
    NoAdjHoles (mavalloc_init 16 .FIRST_FIT).blocks :=
  C2_no_adjacent_free (mavalloc_init 16 .FIRST_FIT) (Reach.init 16 .FIRST_FIT)

/-- C3: splitting a selected FREE block of length L at offset O with an
aligned request S ≤ L inserts an ALLOCATED block of length exactly S at
offset O; if L - S = 0 the FREE block is removed from the list and its
descriptor returned to the pool (the pool count is unchanged: one
descriptor popped for the new block, one pushed back), and if
L - S > 0 the FREE block survives in the same position with offset
O + S and length L - S (the pool count drops by one). -/
theorem C3_split_dichotomy (st : AState) (pre : List Blk) (hb : Blk)
    (post : List Blk) (S : Nat) (hr : Reach (some st))
    (hdec : st.blocks = pre ++ hb :: post) (hhole : hb.2.type = .HOLE)
    (hfit : S ≤ hb.2.size) (hpool : st.pool ≠ 0) :
    allocate_node st pre hb post S =
      (some hb.2.address,
        if hb.2.size - S = 0 then
          { st with
              blocks := pre ++ (st.fresh, ⟨.PROCESS, hb.2.address, S⟩) :: post
              fresh := st.fresh + 1 }
        else
          { st with
              blocks := pre ++ (st.fresh, ⟨.PROCESS, hb.2.address, S⟩) ::
                (hb.1, ⟨.HOLE, hb.2.address + S, hb.2.size - S⟩) :: post
              fresh := st.fresh + 1
              pool := st.pool - 1 }) := by
  rw [allocate_node_spec st pre hb post S (reach_inv _ hr st rfl) hdec hhole
    hfit hpool]
  by_cases h0 : hb.2.size - S = 0
  · have hSeq : hb.2.size = S := by omega
    rw [if_pos h0, if_pos hSeq]
  · have hSne : ¬ hb.2.size = S := by omega
    rw [if_neg h0, if_neg hSne]

/-- Witness for C3: splitting the initial 16-byte hole by 8 bytes. -/
theorem C3_split_dichotomy_witness :
    allocate_node (mavalloc_init 16 .FIRST_FIT) [] (0, ⟨.HOLE, 0, 16⟩) [] 8 =
      (some 0,
        { blocks := [(1, ⟨.PROCESS, 0, 8⟩), (0, ⟨.HOLE, 8, 8⟩)]
          prev := none, fresh := 2, pool := 197, cap := 16
          algo := .FIRST_FIT }) := by
  have h := C3_split_dichotomy (mavalloc_init 16 .FIRST_FIT) []
    (0, ⟨.HOLE, 0, 16⟩) [] 8 (Reach.init 16 .FIRST_FIT) rfl rfl
    (by decide) (by decide)
  rw [h]
  decide

/-- C4: freeing an offset that is not the start offset of any ALLOCATED
block leaves the allocator state — block kinds, offsets, lengths, and
everything else — unchanged. -/
theorem C4_invalid_free_noop (st : AState) (a : Nat) (hr : Reach (some st))
    (hnp : ∀ b ∈ st.blocks, b.2.type = .PROCESS → b.2.address ≠ a) :
    mavalloc_free a (some st) = some st := by
  by_cases hex : ∃ z ∈ st.blocks, z.2.address = a
  · obtain ⟨pre, x, rest, hdec, hx, hpre⟩ := exists_first a st.blocks hex
    obtain ⟨_, _, hchain, _, _, _, _⟩ := reach_inv _ hr st rfl
    rw [hdec] at hchain
    simp only [NoAdjHoles] at hchain
    rw [List.chain'_append] at hchain
    obtain ⟨hchpre, hchmid, hbdy⟩ := hchain
    have hxty : x.2.type = .HOLE := by
      cases hty2 : x.2.type with
      | HOLE => rfl
      | PROCESS => exact absurd hx (hnp x (by rw [hdec]; simp) hty2)
    have hpred : ∀ p, pre.getLast? = some p → p.2.type ≠ .HOLE := by
      intro p hp hph
      exact (hbdy p (Option.mem_def.mpr hp) x (Option.mem_def.mpr rfl))
        ⟨hph, hxty⟩
    have hhead : ∀ y, rest.head? = some y → y.2.type ≠ .HOLE := by
      intro y hy hyh
      cases rest with
      | nil => simp at hy
      | cons y2 rest2 =>
        injection hy with hy2
        rw [← hy2] at hyh
        exact (List.chain'_cons.mp hchmid).1 ⟨hxty, hyh⟩
    have hfr : freeResult pre x rest = (pre ++ x :: rest, 0) := by
      rw [freeResult_sitA pre x rest hpred, retypeHole_eq hxty,
        mergeNextHole_nomerge _ rest hhead]
    rw [mavalloc_free_eq2 st a pre x rest _ _ hdec hpre hx hfr, ← hdec]
    simp
  · push_neg at hex
    exact mavalloc_free_miss st a hex

/-- Witness for C4: freeing offset 4 right after `init(16, FIRST_FIT)`
(no ALLOCATED block exists at all) changes nothing. -/
theorem C4_invalid_free_noop_witness :
    mavalloc_free 4 (some (mavalloc_init 16 .FIRST_FIT)) =
      some (mavalloc_init 16 .FIRST_FIT) :=
  C4_invalid_free_noop (mavalloc_init 16 .FIRST_FIT) 4
    (Reach.init 16 .FIRST_FIT) (by decide)

/-- C5 (code bug): in the reachable next-fit state `nfSt4`, whose only
FREE block has length 32 < ALIGN4 64, requesting 64 bytes does not
return failure with the list unchanged: the C scan dereferences the
null successor of `previous_node` before it can wrap (crash). -/
theorem C5_exhausted_request_crash :
    Reach (some nfSt4) ∧ nfSt4.blocks = [(1, ⟨.HOLE, 0, 32⟩)] ∧
    (32 : Nat) < ALIGN4 64 ∧ mavalloc_alloc 64 (some nfSt4) = .crash := by
  refine ⟨?_, rfl, by decide, by decide⟩
  have h1 : Reach (some nfSt1) :=
    Reach.alloc _ 16 (some 0) _ (Reach.init 32 .NEXT_FIT) (by decide)
  have h2 : Reach (some nfSt2) := Reach.alloc _ 16 (some 16) _ h1 (by decide)
  have h3 : Reach (mavalloc_free 0 (some nfSt2)) := Reach.free _ 0 h2
  have h3b : mavalloc_free 0 (some nfSt2) = some nfSt3 := by decide
  rw [h3b] at h3
  have h4 : Reach (mavalloc_free 16 (some nfSt3)) := Reach.free _ 16 h3
  have h4b : mavalloc_free 16 (some nfSt3) = some nfSt4 := by decide
  rw [h4b] at h4
  exact h4

/-- C6 (counterexample): in the reachable state `zSt1`, `alloc(0)`
succeeds returning offset 0, but the immediate `free(0)` lands on the
other zero-length block carrying offset 0, so the (kind, offset,
length) triples differ from the pre-alloc list. -/
theorem C6_roundtrip_counterexample :
    Reach (some zSt1) ∧
    mavalloc_alloc 0 (some zSt1) = .ok (some 0, some zSt2) ∧
    mavalloc_free 0 (some zSt2) = some zSt3 ∧
    triples zSt3.blocks ≠ triples zSt1.blocks := by
  refine ⟨?_, by decide, by decide, by decide⟩
  exact Reach.alloc _ 0 (some 0) _ (Reach.init 16 .FIRST_FIT) (by decide)

/-- C6 (amended): from any reachable state all of whose blocks have
positive length, if `alloc` of a nonzero size succeeds with address
`a`, then immediately freeing `a` yields a block list whose
(kind, offset, length) triples equal those before the allocation (the
freed region merges back into its FREE neighbour). -/
theorem C6_roundtrip_positive (st st2 : AState) (n a : Nat)
    (hr : Reach (some st)) (hpos : AllPos st.blocks) (hn : 0 < n)
    (h : mavalloc_alloc n (some st) = .ok (some a, some st2)) :
    (mavalloc_free a (some st2)).map (fun s3 => triples s3.blocks) =
      some (triples st.blocks) :=
  roundtrip_core st st2 n a (reach_inv _ hr st rfl) hpos hn h

/-- Witness for the amended C6: `init(16, FIRST_FIT)`, `alloc(4)` at
address 0, then `free(0)` restores the single 16-byte FREE block. -/
theorem C6_roundtrip_positive_witness :
    (mavalloc_free 0 (some
        { blocks := [(1, ⟨.PROCESS, 0, 4⟩), (0, ⟨.HOLE, 4, 12⟩)]
          prev := none, fresh := 2, pool := 197, cap := 16
          algo := .FIRST_FIT })).map (fun s3 => triples s3.blocks) =
      some (triples (mavalloc_init 16 .FIRST_FIT).blocks) :=
  C6_roundtrip_positive (mavalloc_init 16 .FIRST_FIT) _ 4 0
    (Reach.init 16 .FIRST_FIT) (by decide) (by decide) (by decide)

/-- C7 (code bug): a next-fit allocation does not always terminate with
a selected block or a failure result: in the reachable state `nfSt4`,
where coalescing has made the cursor node the last node of the list,
the scan dereferences the cursor's null successor before it can wrap to
the head, crashing (for any request, here 4 bytes). -/
theorem C7_next_fit_crash :
    Reach (some nfSt4) ∧ mavalloc_alloc 4 (some nfSt4) = .crash := by
  refine ⟨?_, by decide⟩
  have h1 : Reach (some nfSt1) :=
    Reach.alloc _ 16 (some 0) _ (Reach.init 32 .NEXT_FIT) (by decide)
  have h2 : Reach (some nfSt2) := Reach.alloc _ 16 (some 16) _ h1 (by decide)
  have h3 : Reach (mavalloc_free 0 (some nfSt2)) := Reach.free _ 0 h2
  have h3b : mavalloc_free 0 (some nfSt2) = some nfSt3 := by decide
  rw [h3b] at h3
  have h4 : Reach (mavalloc_free 16 (some nfSt3)) := Reach.free _ 16 h3
  have h4b : mavalloc_free 16 (some nfSt3) = some nfSt4 := by decide
  rw [h4b] at h4
  exact h4

/-- C8: in every reachable state all block offsets and lengths are
multiples of 4; when `alloc(n)` succeeds at address `a`, both `a` and
the new ALLOCATED block's length `ALIGN4 n` are multiples of 4, and the
block `(PROCESS, a, ALIGN4 n)` is present in the post-state list. -/
theorem C8_alignment (st st2 : AState) (n a : Nat) (hr : Reach (some st))
    (h : mavalloc_alloc n (some st) = .ok (some a, some st2)) :
    a % 4 = 0 ∧ ALIGN4 n % 4 = 0 ∧
    (st.fresh, (⟨.PROCESS, a, ALIGN4 n⟩ : Node)) ∈ st2.blocks ∧
    (∀ b ∈ st.blocks, b.2.address % 4 = 0 ∧ b.2.size % 4 = 0) := by
  have hinv := reach_inv _ hr st rfl
  obtain ⟨pre, hb, post, st2b, hdec, hty, hsz, ha, hsome, _, _, _, hblocks, _⟩ :=
    alloc_success_spec st n a _ hinv h
  obtain rfl : st2 = st2b := by injection hsome
  have hal4 := hinv.2.2.2.2.2.2
  have h4b := hal4 hb (by rw [hdec]; simp)
  refine ⟨by rw [ha]; exact h4b.1, align4_mod n, ?_, fun b hbm => hal4 b hbm⟩
  rw [hblocks, ha]
  by_cases hSeq : hb.2.size = ALIGN4 n
  · rw [if_pos hSeq]
    simp
  · rw [if_neg hSeq]
    simp

/-- Witness for C8: `alloc(8)` after `init(16, FIRST_FIT)` returns
address 0 and creates the block (PROCESS, 0, ALIGN4 8). -/
theorem C8_alignment_witness :
    (0 : Nat) % 4 = 0 ∧ ALIGN4 8 % 4 = 0 ∧
    ((mavalloc_init 16 .FIRST_FIT).fresh, (⟨.PROCESS, 0, ALIGN4 8⟩ : Node)) ∈
      ({ blocks := [(1, ⟨.PROCESS, 0, 8⟩), (0, ⟨.HOLE, 8, 8⟩)]
         prev := none, fresh := 2, pool := 197, cap := 16
         algo := .FIRST_FIT } : AState).blocks := by
  obtain ⟨h1, h2, h3, _⟩ := C8_alignment (mavalloc_init 16 .FIRST_FIT)
    ({ blocks := [(1, ⟨.PROCESS, 0, 8⟩), (0, ⟨.HOLE, 8, 8⟩)]
       prev := none, fresh := 2, pool := 197, cap := 16
       algo := .FIRST_FIT } : AState) 8 0
    (Reach.init 16 .FIRST_FIT) (by decide)
  exact ⟨h1, h2, h3⟩

/-- C9 (counterexample): the reachable state `zSt1` (after
`init(16, FIRST_FIT); alloc(0)`) contains the zero-length ALLOCATED
block (PROCESS, 0, 0), falsifying the claim that every non-sentinel
block has strictly positive length even after a request that rounds
to 0. -/
theorem C9_zero_length_counterexample :
    Reach (some zSt1) ∧
    ((1 : Nat), (⟨.PROCESS, 0, 0⟩ : Node)) ∈ zSt1.blocks ∧
    ¬ AllPos zSt1.blocks := by
  refine ⟨?_, by decide, by decide⟩
  exact Reach.alloc _ 0 (some 0) _ (Reach.init 16 .FIRST_FIT) (by decide)

/-- C9 (amended): when the initial capacity is nonzero and every
allocation request is nonzero, every block in every reachable state has
strictly positive length. -/
theorem C9_positive_lengths (st : AState) (hr : ReachPos (some st)) :
    AllPos st.blocks :=
  reachpos_allpos _ hr st rfl

/-- Witness for the amended C9: the initial hole after a positive init
has positive length. -/
theorem C9_positive_lengths_witness : 0 < ALIGN4 16 :=
  C9_positive_lengths (mavalloc_init 16 .FIRST_FIT)
    (ReachPos.init 16 .FIRST_FIT (by decide)) (0, ⟨.HOLE, 0, ALIGN4 16⟩)
    (by simp [mavalloc_init])

/-- C10: with the allocator uninitialized (before any init, or after
destroy), alloc returns failure, free is a no-op, size returns 0 and
destroy is a no-op; in particular destroying twice equals destroying
once. -/
theorem C10_uninitialized_safe :
    (∀ n : Nat, mavalloc_alloc n none = .ok (none, none)) ∧
    (∀ a : Nat, mavalloc_free a none = none) ∧
    mavalloc_size none = 0 ∧
    mavalloc_destroy none = none ∧
    (∀ s : Option AState, mavalloc_destroy (mavalloc_destroy s) =
      mavalloc_destroy s) :=
  ⟨fun _ => rfl, fun _ => rfl, rfl, rfl, fun _ => rfl⟩

end Mavalloc
